import Mathlib

/-!
# Matrix: a dense row-major grid with 8-way neighbour iteration

Shallow embedding of `src/matrix.cpp` (class template `Matrix<T>` and its nested
`NeighbourIterator`) together with the properties proved about it.

Conventions of the embedding

* `std::vector<T>` is a `List T`; `std::size_t` is a natural number below `2 ^ 64`
  and every `size_type` computation of the source is reduced modulo `2 ^ 64`.
* A read or write of `data[i]` with `i` outside the vector is undefined behaviour
  in the source; here such an operation returns `none`.
* A callable `std::function<void(T &)>` with captured state of type `σ` is a
  function `σ → T → σ × T`: from the captured state and the referenced element to
  the new captured state and the new value of the element.
* Traversals carry a ghost list `visited` of the storage slots whose reference was
  handed to the callable, in the order of the calls.
* A callable that may throw returns, besides the state and the element it leaves,
  the exception if one is thrown; the traversal then stops and hands the exception
  and the run as it is to its caller.
* `std::ostream` is the text written so far, a `String`; the element's own
  `operator<<` is a function `T → String`.
-/

set_option autoImplicit false

namespace MatrixCpp

/-! ## Data model -/

/-- Number of values of `std::size_t` (64-bit unsigned). -/
def SIZE_MOD : Nat := 2 ^ 64

/-- Largest value of `int` (32-bit signed). -/
def INT_MAX : Int := 2 ^ 31 - 1

/-- Conversion of a signed integer to `size_type`, as done by the usual arithmetic
conversions in `row + rd` and in `neighbours < neighbours_delta.size()`. -/
def toSize (z : Int) : Nat := (z % (SIZE_MOD : Int)).toNat

/-- The sum `row + rd` of a `size_type` and an `int`, of type `size_type`. -/
def addDelta (x : Nat) (d : Int) : Nat := toSize ((x : Int) + d)

/-- The members of `Matrix<T>`: `data`, `rows_`, `cols_` (matrix.cpp 61-63). -/
structure Matrix (T : Type) where
  data : List T
  rows_ : Nat
  cols_ : Nat
deriving Repr, DecidableEq

namespace Matrix

variable {T σ : Type}

/-- Constructor `Matrix(rows, cols) : data(cols * rows), rows_{rows}, cols_{cols}`
(matrix.cpp 13-14); the product is a `size_type` product. -/
def create [Inhabited T] (rows cols : Nat) : Matrix T :=
  { data := List.replicate ((cols * rows) % SIZE_MOD) default
    rows_ := rows
    cols_ := cols }

/-- Accessor `rows()` (matrix.cpp 26). -/
def rows (m : Matrix T) : Nat := m.rows_

/-- Accessor `cols()` (matrix.cpp 27). -/
def cols (m : Matrix T) : Nat := m.cols_

/-- The subscript `row * cols_ + col` computed by both `operator()` overloads
(matrix.cpp 19, 23), a `size_type` expression. -/
def slot (m : Matrix T) (row col : Nat) : Nat := (row * m.cols_ + col) % SIZE_MOD

/-- Reading through `operator()(row, col)`: the value of `data[row * cols_ + col]`
(matrix.cpp 18-24); `none` when the subscript is outside the vector. -/
def call (m : Matrix T) (row col : Nat) : Option T := m.data[m.slot row col]?

/-- The assignment `m(row, col) = v` through the reference returned by the mutable
`operator()` (matrix.cpp 18-20); `none` when the subscript is outside the vector. -/
def assign (m : Matrix T) (row col : Nat) (v : T) : Option (Matrix T) :=
  if m.slot row col < m.data.length then
    some { m with data := m.data.set (m.slot row col) v }
  else none

/-- The invariant of the data model: the dimensions are `size_type` values and the
storage holds exactly `rows_ * cols_` elements (a vector size is itself a
`size_type`, so the product is below `2 ^ 64`). -/
def Valid (m : Matrix T) : Prop :=
  m.rows_ < SIZE_MOD ∧ m.cols_ < SIZE_MOD ∧ m.rows_ * m.cols_ < SIZE_MOD ∧
    m.data.length = m.rows_ * m.cols_

instance (m : Matrix T) : Decidable m.Valid := by
  unfold Valid; infer_instance

end Matrix

/-- The table `neighbours_delta` (matrix.cpp 65-66). -/
def neighbours_delta : List (Int × Int) :=
  [(-1, -1), (-1, 0), (-1, 1), (0, -1), (0, 1), (1, -1), (1, 0), (1, 1)]

/-- A traversal in progress: the grid, the captured state of the callable, and the
ghost list of the storage slots handed to the callable so far. -/
structure Run (T σ : Type) where
  m : Matrix T
  st : σ
  visited : List Nat

namespace Matrix

variable {T σ : Type}

/-- The call `f(data[i])`: the callable receives a reference to the element of slot
`i` and may overwrite it; `none` when `i` is outside the vector. -/
def applyRef (f : σ → T → σ × T) (run : Run T σ) (i : Nat) : Option (Run T σ) :=
  match run.m.data[i]? with
  | none => none
  | some x =>
    some { m := { run.m with data := run.m.data.set i (f run.st x).2 }
           st := (f run.st x).1
           visited := run.visited ++ [i] }

/-- The call `f((*this)(r, c))` of matrix.cpp 36. -/
def applyAt (f : σ → T → σ × T) (run : Run T σ) (r c : Nat) : Option (Run T σ) :=
  applyRef f run (run.m.slot r c)

/-- The loop `for (auto &el : data) f(el);` (matrix.cpp 30) over the elements that
remain, the first of which has slot `i`: new elements, final captured state, and
the slots visited. -/
def traverseLoop (f : σ → T → σ × T) : List T → Nat → σ → List T × σ × List Nat
  | [], _, s => ([], s, [])
  | x :: xs, i, s =>
    let r := traverseLoop f xs (i + 1) (f s x).1
    ((f s x).2 :: r.1, r.2.1, i :: r.2.2)

/-- Full traversal `traverse(f)` (matrix.cpp 29-31). -/
def traverse (f : σ → T → σ × T) (m : Matrix T) (s : σ) : Run T σ :=
  { m := { m with data := (traverseLoop f m.data 0 s).1 }
    st := (traverseLoop f m.data 0 s).2.1
    visited := (traverseLoop f m.data 0 s).2.2 }

/-- One iteration of the loop body of matrix.cpp 34-37 for the table entry `d`:
`size_type r = row + rd, c = col + cd;` then the guarded call. -/
def traverseStep (f : σ → T → σ × T) (row col : Nat) (run : Run T σ) (d : Int × Int) :
    Option (Run T σ) :=
  let r := addDelta row d.1
  let c := addDelta col d.2
  if 0 ≤ r ∧ r < run.m.rows_ ∧ 0 ≤ c ∧ c < run.m.cols_ then applyAt f run r c
  else some run

/-- Neighbourhood traversal `traverse(f, row, col)` (matrix.cpp 33-38); `none` when
some call reaches outside the vector. -/
def traverseAt (f : σ → T → σ × T) (m : Matrix T) (row col : Nat) (s : σ) :
    Option (Run T σ) :=
  neighbours_delta.foldlM (traverseStep f row col) { m := m, st := s, visited := [] }

end Matrix

/-- The members `row`, `col`, `neighbours` of `NeighbourIterator` (matrix.cpp
122-123). The member `m`, a reference to the grid, is passed to the operations
that use it. -/
structure NeighbourIterator where
  row : Nat
  col : Nat
  neighbours : Int
deriving Repr, DecidableEq

/-- Factory `neighbours(row, col)` (matrix.cpp 46-48): the constructor of matrix.cpp
75-77 with its default argument `neighbours = 0`. -/
def Matrix.neighbours {T : Type} (_m : Matrix T) (row col : Nat) : NeighbourIterator :=
  { row := row, col := col, neighbours := 0 }

namespace NeighbourIterator

variable {T : Type}

/-- Member `get_delta()` (matrix.cpp 79): `neighbours_delta[neighbours]`; `none`
when the subscript is outside the table. -/
def get_delta (it : NeighbourIterator) : Option (Int × Int) :=
  neighbours_delta[toSize it.neighbours]?

/-- Member `exists()` (matrix.cpp 81-85). -/
def exists_ (it : NeighbourIterator) (m : Matrix T) : Option Bool :=
  match it.get_delta with
  | none => none
  | some d =>
    let r := addDelta it.row d.1
    let c := addDelta it.col d.2
    some (decide (0 ≤ r ∧ r < m.rows_ ∧ 0 ≤ c ∧ c < m.cols_))

/-- Reading through `operator*` (matrix.cpp 87-92): the value of
`m(row + rd, col + cd)`. -/
def star (it : NeighbourIterator) (m : Matrix T) : Option T :=
  match it.get_delta with
  | none => none
  | some d => m.call (addDelta it.row d.1) (addDelta it.col d.2)

/-- The assignment `*it = v` through the reference returned by `operator*`
(matrix.cpp 87-92). -/
def star_assign (it : NeighbourIterator) (m : Matrix T) (v : T) : Option (Matrix T) :=
  match it.get_delta with
  | none => none
  | some d => m.assign (addDelta it.row d.1) (addDelta it.col d.2) v

/-- The loop `do { neighbours++; } while (neighbours < neighbours_delta.size() &&
!exists());` (matrix.cpp 95-97), at most `fuel` executions of the body. `none` when
the increment overflows `int`, when `exists()` reads outside the table, or when
the fuel is spent. -/
def incLoop : Nat → NeighbourIterator → Matrix T → Option NeighbourIterator
  | 0, _, _ => none
  | fuel + 1, it, m =>
    if it.neighbours = INT_MAX then none
    else
      let it1 : NeighbourIterator := { it with neighbours := it.neighbours + 1 }
      if toSize it1.neighbours < neighbours_delta.length then
        match it1.exists_ m with
        | none => none
        | some true => some it1
        | some false => incLoop fuel it1 m
      else some it1

/-- Pre-increment `operator++` (matrix.cpp 94-100). Nine executions of the loop
body are enough from every cursor (`incLoop_spec`, `incLoop_past_table`). -/
def inc (it : NeighbourIterator) (m : Matrix T) : Option NeighbourIterator :=
  incLoop (neighbours_delta.length + 1) it m

/-- Member `begin()` (matrix.cpp 106). -/
def begin (it : NeighbourIterator) : NeighbourIterator :=
  { row := it.row, col := it.col, neighbours := 0 }

/-- Member `end()` (matrix.cpp 107-109). -/
def end_ (it : NeighbourIterator) : NeighbourIterator :=
  { row := it.row, col := it.col, neighbours := (neighbours_delta.length : Int) }

/-- Comparison `operator==` (matrix.cpp 111-114). -/
def eq (a b : NeighbourIterator) : Bool := decide (a.neighbours = b.neighbours)

/-- Comparison `operator!=` (matrix.cpp 115-118). -/
def ne (a b : NeighbourIterator) : Bool := decide (a.neighbours ≠ b.neighbours)

/-- The position after `n` applications of `operator++`. -/
def incN (m : Matrix T) : Nat → NeighbourIterator → Option NeighbourIterator
  | 0, it => some it
  | n + 1, it =>
    match it.inc m with
    | none => none
    | some it1 => incN m n it1

end NeighbourIterator

/-! ## The statements of `main` that prepare the grid (main.cpp 7-13) -/

namespace Matrix

variable {T : Type}

/-- The call `std::fill(m.begin(), m.end(), v)` (main.cpp 10): `begin()` and `end()`
(matrix.cpp 40-41) delimit the whole storage, every element of which is assigned
`v`. -/
def fill (m : Matrix T) (v : T) : Matrix T :=
  { m with data := m.data.map (fun _ => v) }

/-- A range-based `for (auto &el : m) el = g(el);` over `begin()`..`end()`
(main.cpp 13 with `g(el) = el + 1`). -/
def forEach (m : Matrix T) (g : T → T) : Matrix T :=
  { m with data := m.data.map g }

end Matrix

/-- The grid of `main` after `Matrix<int> m(10, 10)`, the fill with 0 and the
increment of every element (main.cpp 7-13). -/
def main_ones : Matrix Int :=
  ((Matrix.create 10 10 : Matrix Int).fill 0).forEach (fun el => el + 1)

/-- The accumulating lambda `[&sum](int &el) { sum += el; }` (main.cpp 17): the
captured state is `sum`, the element is left as it is. -/
def sum_lambda (sum : Int) (el : Int) : Int × Int := (sum + el, el)

/-- The lambdas `[](int &el) { el = v; }` of main.cpp 20, 23, 27: no captured state,
the element is overwritten with `v`. -/
def set_lambda (v : Int) (u : Unit) (_el : Int) : Unit × Int := (u, v)

/-! ## Predicates used in the statements -/

/-- Whether the integer coordinates `p` lie in `[0, rows) x [0, cols)`. -/
def inGridInt (rows cols : Nat) (p : Int × Int) : Bool :=
  decide (0 ≤ p.1 ∧ p.1 < (rows : Int) ∧ 0 ≤ p.2 ∧ p.2 < (cols : Int))

/-- The integer coordinates `(r + dr, c + dc)` of the offset `d` from the centre. -/
def offsetInt (r c : Nat) (d : Int × Int) : Int × Int := ((r : Int) + d.1, (c : Int) + d.2)

/-- The cells `(r + dr, c + dc)` of the offsets of the table, in table order, that
lie inside the grid, sums taken over the integers. -/
def neighbourCells (rows cols r c : Nat) : List (Nat × Nat) :=
  (neighbours_delta.filter (fun d => inGridInt rows cols (offsetInt r c d))).map
    (fun d => ((offsetInt r c d).1.toNat, (offsetInt r c d).2.toNat))

/-- The offset of cursor `k` yields coordinates inside the grid: `k` indexes the
table and the `size_type` coordinates `(row + rd, col + cd)` of its entry satisfy
`r < rows` and `c < cols`. -/
def OffsetExists {T : Type} (m : Matrix T) (row col : Nat) (k : Int) : Prop :=
  0 ≤ k ∧ ∃ d ∈ neighbours_delta[k.toNat]?,
    addDelta row d.1 < m.rows_ ∧ addDelta col d.2 < m.cols_

instance {T : Type} (m : Matrix T) (row col : Nat) (k : Int) :
    Decidable (OffsetExists m row col k) := by
  unfold OffsetExists; infer_instance

/-- Two grids have the same dimensions and the same number of stored elements. -/
def SameShape {T : Type} (m m1 : Matrix T) : Prop :=
  m1.rows_ = m.rows_ ∧ m1.cols_ = m.cols_ ∧ m1.data.length = m.data.length

/-! ## Iteration over the neighbour sequence -/

namespace NeighbourIterator

variable {T σ : Type}

/-- The call `f(*it)`: the callable receives the reference returned by `operator*`
(matrix.cpp 87-92), that is `m(row + rd, col + cd)`. -/
def star_apply (f : σ → T → σ × T) (it : NeighbourIterator) (run : Run T σ) :
    Option (Run T σ) :=
  match it.get_delta with
  | none => none
  | some d => Matrix.applyAt f run (addDelta it.row d.1) (addDelta it.col d.2)

/-- The loop `for (; first != last; ++first) f(*first);` of `std::for_each`
(main.cpp 27), which is also the loop of a range-based `for` (main.cpp 23), at
most `fuel` evaluations of the loop test. `none` when a dereference or an advance
is undefined, or when the fuel is spent. -/
def for_each_loop (f : σ → T → σ × T) :
    Nat → NeighbourIterator → NeighbourIterator → Run T σ → Option (Run T σ)
  | 0, _, _, _ => none
  | fuel + 1, first, last, run =>
    if NeighbourIterator.ne first last then
      match first.star_apply f run with
      | none => none
      | some run1 =>
        match first.inc run1.m with
        | none => none
        | some next => for_each_loop f fuel next last run1
    else some run

end NeighbourIterator

/-- Iteration of `m.neighbours(row, col)` from `begin()` to `end()` applying `f` to
every element: `std::for_each(it.begin(), it.end(), f)` with `it = m.neighbours(row,
col)` (main.cpp 26-27), or `for (auto &el : m.neighbours(row, col)) f(el);`
(main.cpp 23). Nine evaluations of the loop test are enough from `begin()`. -/
def Matrix.for_each_neighbours {T σ : Type} (f : σ → T → σ × T) (m : Matrix T)
    (row col : Nat) (s : σ) : Option (Run T σ) :=
  NeighbourIterator.for_each_loop f (neighbours_delta.length + 1)
    (m.neighbours row col).begin (m.neighbours row col).end_ (Run.mk m s [])

/-- The cells `(row + rd, col + cd)`, as `size_type` values, of the entries of `l`
that pass the bounds test of the code, in the order of `l`. -/
def existingCellsOf (rows cols row col : Nat) (l : List (Int × Int)) : List (Nat × Nat) :=
  (l.filter (fun d => decide (addDelta row d.1 < rows ∧ addDelta col d.2 < cols))).map
    (fun d => (addDelta row d.1, addDelta col d.2))

/-- The cells of the table entries that pass the bounds test of the code. -/
def existingCells (rows cols row col : Nat) : List (Nat × Nat) :=
  existingCellsOf rows cols row col neighbours_delta

/-! ## Textual rendering -/

namespace Matrix

variable {T : Type}

/-- The inner loop of `operator<<` (matrix.cpp 52-54) for one row:
`for (col = 0; col < m.cols_; ++col) os << m(row, col) << " ";`. The text already in
the stream is `os`, the element's own `operator<<` is `text`. -/
def shl_row (text : T → String) (m : Matrix T) (row : Nat) (os : String) : Option String :=
  (List.range m.cols_).foldlM
    (fun os col =>
      match m.call row col with
      | none => none
      | some x => some (os ++ text x ++ " "))
    os

/-- The friend `operator<<(os, m)` (matrix.cpp 50-58): for every row, the inner loop
and then `os << '\n'`. -/
def shl (text : T → String) (m : Matrix T) (os : String) : Option String :=
  (List.range m.rows_).foldlM
    (fun os row =>
      match m.shl_row text row os with
      | none => none
      | some os1 => some (os1 ++ "\n"))
    os

/-- The line of row `r` in the words of the specification: the representations of
`m(r, 0), ..., m(r, cols-1)`, each followed by one space, then one newline. -/
def lineText (text : T → String) (m : Matrix T) (r : Nat) : String :=
  String.join ((List.range m.cols_).map
    (fun c => (match m.call r c with
      | none => ""
      | some x => text x) ++ " ")) ++ "\n"

/-- The rendering in the words of the specification: the lines of the rows
`0, ..., rows-1` in order, nothing before, between or after them. -/
def gridText (text : T → String) (m : Matrix T) : String :=
  String.join ((List.range m.rows_).map (lineText text m))

end Matrix

/-- A 2 x 2 grid of integers used to exercise the rendering. -/
def grid22 : Matrix Int := { data := [0, 1, 1, 0], rows_ := 2, cols_ := 2 }

/-- A textual representation for the elements of `grid22`. -/
def bitText (x : Int) : String := if x = 0 then "0" else "1"

/-! ## Traversals with an operation that may throw

A callable that may throw is a function `σ → T → (σ × T) × Option ε`: the captured
state and the element as the call leaves them, and the exception if one is thrown.
A traversal stops at the first exception and passes it on to its caller, together
with the run as it then is. -/

namespace Matrix

variable {T σ ε : Type}

/-- The call `f(data[i])` of a callable that may throw. -/
def applyRefE (f : σ → T → (σ × T) × Option ε) (run : Run T σ) (i : Nat) :
    Option (Run T σ × Option ε) :=
  match run.m.data[i]? with
  | none => none
  | some x =>
    some ({ m := { run.m with data := run.m.data.set i (f run.st x).1.2 }
            st := (f run.st x).1.1
            visited := run.visited ++ [i] }, (f run.st x).2)

/-- The call `f((*this)(r, c))` of matrix.cpp 36 for a callable that may throw. -/
def applyAtE (f : σ → T → (σ × T) × Option ε) (run : Run T σ) (r c : Nat) :
    Option (Run T σ × Option ε) :=
  applyRefE f run (run.m.slot r c)

/-- The loop `for (auto &el : data) f(el);` (matrix.cpp 30) for a callable that may
throw: the loop is left at the first exception. -/
def traverseLoopE (f : σ → T → (σ × T) × Option ε) :
    List T → Nat → σ → (List T × σ × List Nat) × Option ε
  | [], _, s => (([], s, []), none)
  | x :: xs, i, s =>
    match (f s x).2 with
    | some e => (((f s x).1.2 :: xs, (f s x).1.1, [i]), some e)
    | none =>
      let r := traverseLoopE f xs (i + 1) (f s x).1.1
      (((f s x).1.2 :: r.1.1, r.1.2.1, i :: r.1.2.2), r.2)

/-- Full traversal `traverse(f)` (matrix.cpp 29-31) for a callable that may throw. -/
def traverseE (f : σ → T → (σ × T) × Option ε) (m : Matrix T) (s : σ) :
    Run T σ × Option ε :=
  ({ m := { m with data := (traverseLoopE f m.data 0 s).1.1 }
     st := (traverseLoopE f m.data 0 s).1.2.1
     visited := (traverseLoopE f m.data 0 s).1.2.2 }, (traverseLoopE f m.data 0 s).2)

/-- The loop of matrix.cpp 34-37 over the table entries that remain, for a callable
that may throw. -/
def traverseStepsE (f : σ → T → (σ × T) × Option ε) (row col : Nat) :
    List (Int × Int) → Run T σ → Option (Run T σ × Option ε)
  | [], run => some (run, none)
  | d :: ds, run =>
    if 0 ≤ addDelta row d.1 ∧ addDelta row d.1 < run.m.rows_ ∧
        0 ≤ addDelta col d.2 ∧ addDelta col d.2 < run.m.cols_ then
      match applyAtE f run (addDelta row d.1) (addDelta col d.2) with
      | none => none
      | some (run1, some e) => some (run1, some e)
      | some (run1, none) => traverseStepsE f row col ds run1
    else traverseStepsE f row col ds run

/-- Neighbourhood traversal `traverse(f, row, col)` (matrix.cpp 33-38) for a callable
that may throw. -/
def traverseAtE (f : σ → T → (σ × T) × Option ε) (m : Matrix T) (row col : Nat) (s : σ) :
    Option (Run T σ × Option ε) :=
  traverseStepsE f row col neighbours_delta (Run.mk m s [])

/-- The calls `f(m(r1, c1))` on the cells of a list, in order, up to the first
exception. -/
def applyCellsE (f : σ → T → (σ × T) × Option ε) :
    List (Nat × Nat) → Run T σ → Option (Run T σ × Option ε)
  | [], run => some (run, none)
  | p :: ps, run =>
    match applyAtE f run p.1 p.2 with
    | none => none
    | some (run1, some e) => some (run1, some e)
    | some (run1, none) => applyCellsE f ps run1

end Matrix

/-- A 3 x 3 grid of distinct integers used to exercise the failing traversals. -/
def grid33 : Matrix Int := { data := [0, 1, 2, 3, 4, 5, 6, 7, 8], rows_ := 3, cols_ := 3 }

/-- An operation on integers that adds 10 to the element, counts its calls in the
captured state, and throws the exception 7 on the element 5 (after having changed
it). -/
def failing_op (calls : Nat) (el : Int) : (Nat × Int) × Option Nat :=
  ((calls + 1, el + 10), if el = 5 then some 7 else none)

/-- An operation like `failing_op` that throws on its ninth call, whatever the
element: on `grid33` only the full traversal makes nine calls. -/
def throw_on_ninth (calls : Nat) (el : Int) : (Nat × Int) × Option Nat :=
  ((calls + 1, el + 10), if calls = 8 then some 7 else none)

/-- An operation like `failing_op` that throws on the element 5 only when at most one
call came before: on `grid33` the full traversal reaches the element 5 after five
calls and throws nothing, the traversal around `(2, 2)` reaches it after one. -/
def throw_early_on_five (calls : Nat) (el : Int) : (Nat × Int) × Option Nat :=
  ((calls + 1, el + 10), if el = 5 ∧ calls ≤ 1 then some 7 else none)

/-! ## The run of `main` (main.cpp 17-27) -/

/-- The grid of `main` after the accumulating traversal (main.cpp 17) and
`m.traverse([](int &el) { el = 0; }, 5, 5)` (main.cpp 20). -/
def main_after_traverse : Option (Matrix Int) :=
  ((main_ones.traverse sum_lambda 0).m.traverseAt (set_lambda 0) 5 5 ()).map (fun run => run.m)

/-- The grid of `main` after `for (auto &el : m.neighbours(8, 8)) el = 8;`
(main.cpp 23). -/
def main_after_range_for : Option (Matrix Int) :=
  main_after_traverse.bind
    (fun m => (m.for_each_neighbours (set_lambda 8) 8 8 ()).map (fun run => run.m))

/-- The grid of `main` after `std::for_each(it.begin(), it.end(), [](int &el) { el = 4;
})` with `it = m.neighbours(0, 2)` (main.cpp 26-27), the grid that is printed. -/
def main_final : Option (Matrix Int) :=
  main_after_range_for.bind
    (fun m => (m.for_each_neighbours (set_lambda 4) 0 2 ()).map (fun run => run.m))

/-! ## Index arithmetic -/

namespace Matrix

variable {T σ : Type}

theorem slot_eq_of_valid (m : Matrix T) (hm : m.Valid) (r c : Nat)
    (hr : r < m.rows_) (hc : c < m.cols_) : m.slot r c = r * m.cols_ + c := by
  obtain ⟨_, _, hlt, _⟩ := hm
  have h1 : r * m.cols_ + c < m.rows_ * m.cols_ := by
    have : (r + 1) * m.cols_ ≤ m.rows_ * m.cols_ := Nat.mul_le_mul_right _ hr
    have h2 : (r + 1) * m.cols_ = r * m.cols_ + m.cols_ := by ring
    omega
  unfold slot
  exact Nat.mod_eq_of_lt (lt_trans h1 hlt)

theorem slot_lt_of_valid (m : Matrix T) (hm : m.Valid) (r c : Nat)
    (hr : r < m.rows_) (hc : c < m.cols_) : m.slot r c < m.data.length := by
  rw [slot_eq_of_valid m hm r c hr hc, hm.2.2.2]
  have : (r + 1) * m.cols_ ≤ m.rows_ * m.cols_ := Nat.mul_le_mul_right _ hr
  have h2 : (r + 1) * m.cols_ = r * m.cols_ + m.cols_ := by ring
  omega

theorem slot_inj_of_valid (m : Matrix T) (hm : m.Valid) (r c r1 c1 : Nat)
    (hr : r < m.rows_) (hc : c < m.cols_) (hr1 : r1 < m.rows_) (hc1 : c1 < m.cols_)
    (h : m.slot r c = m.slot r1 c1) : r = r1 ∧ c = c1 := by
  rw [slot_eq_of_valid m hm r c hr hc, slot_eq_of_valid m hm r1 c1 hr1 hc1] at h
  have hpos : 0 < m.cols_ := by omega
  have hd : (m.cols_ * r + c) / m.cols_ = (m.cols_ * r1 + c1) / m.cols_ := by
    rw [Nat.mul_comm m.cols_ r, Nat.mul_comm m.cols_ r1, h]
  rw [Nat.mul_add_div hpos, Nat.mul_add_div hpos, Nat.div_eq_of_lt hc,
    Nat.div_eq_of_lt hc1] at hd
  have hrr : r = r1 := by omega
  subst hrr
  exact ⟨rfl, by omega⟩

theorem slot_div_mod (m : Matrix T) (hm : m.Valid) (i : Nat) (hi : i < m.data.length) :
    i / m.cols_ < m.rows_ ∧ i % m.cols_ < m.cols_ ∧ m.slot (i / m.cols_) (i % m.cols_) = i := by
  have hlen := hm.2.2.2
  have hpos : 0 < m.cols_ := by
    rcases Nat.eq_zero_or_pos m.cols_ with h0 | h0
    · rw [hlen, h0] at hi
      simp at hi
    · exact h0
  have h1 : i / m.cols_ < m.rows_ := by
    rw [Nat.div_lt_iff_lt_mul hpos]
    omega
  have h2 : i % m.cols_ < m.cols_ := Nat.mod_lt _ hpos
  refine ⟨h1, h2, ?_⟩
  rw [slot_eq_of_valid m hm _ _ h1 h2]
  exact Nat.div_add_mod' i m.cols_

end Matrix

/-! ## Shape preservation -/

theorem SameShape.refl {T : Type} (m : Matrix T) : SameShape m m := ⟨rfl, rfl, rfl⟩

theorem SameShape.trans {T : Type} {a b c : Matrix T} (h1 : SameShape a b)
    (h2 : SameShape b c) : SameShape a c :=
  ⟨h2.1.trans h1.1, h2.2.1.trans h1.2.1, h2.2.2.trans h1.2.2⟩

theorem SameShape.valid {T : Type} {a b : Matrix T} (h : SameShape a b) (ha : a.Valid) :
    b.Valid := by
  obtain ⟨h1, h2, h3⟩ := h
  unfold Matrix.Valid at *
  rw [h1, h2, h3]
  exact ha

theorem foldlM_some_inv {α β : Type} (P : β → Prop) (g : β → α → Option β)
    (hg : ∀ b a b1, P b → g b a = some b1 → P b1) :
    ∀ (l : List α) (b b1 : β), P b → l.foldlM g b = some b1 → P b1 := by
  intro l
  induction l with
  | nil =>
    intro b b1 hb h
    simp only [List.foldlM, pure, Option.some.injEq] at h
    exact h ▸ hb
  | cons a l ih =>
    intro b b1 hb h
    simp only [List.foldlM, bind, Option.bind] at h
    cases hga : g b a with
    | none => simp [hga] at h
    | some b2 =>
      simp only [hga] at h
      exact ih b2 b1 (hg b a b2 hb hga) h

theorem foldlM_some_total {α β : Type} (P : β → Prop) (g : β → α → Option β)
    (hg : ∀ b a, P b → ∃ b1, g b a = some b1 ∧ P b1) :
    ∀ (l : List α) (b : β), P b → ∃ b1, l.foldlM g b = some b1 ∧ P b1 := by
  intro l
  induction l with
  | nil =>
    intro b hb
    exact ⟨b, rfl, hb⟩
  | cons a l ih =>
    intro b hb
    obtain ⟨b2, hb2, hP2⟩ := hg b a hb
    obtain ⟨b1, hb1, hP1⟩ := ih b2 hP2
    refine ⟨b1, ?_, hP1⟩
    simp only [List.foldlM, bind, Option.bind, hb2]
    exact hb1

namespace Matrix

variable {T σ : Type}

theorem assign_sameShape (m m1 : Matrix T) (r c : Nat) (v : T)
    (h : m.assign r c v = some m1) : SameShape m m1 := by
  unfold assign at h
  split at h
  · simp only [Option.some.injEq] at h
    subst h
    exact ⟨rfl, rfl, by simp⟩
  · simp at h

theorem applyRef_sameShape (f : σ → T → σ × T) (run run1 : Run T σ) (i : Nat)
    (h : applyRef f run i = some run1) : SameShape run.m run1.m := by
  unfold applyRef at h
  split at h
  · simp at h
  · simp only [Option.some.injEq] at h
    subst h
    exact ⟨rfl, rfl, by simp⟩

theorem applyRef_some (f : σ → T → σ × T) (run : Run T σ) (i : Nat)
    (hi : i < run.m.data.length) :
    applyRef f run i =
      some { m := { run.m with data := run.m.data.set i (f run.st run.m.data[i]).2 }
             st := (f run.st run.m.data[i]).1
             visited := run.visited ++ [i] } := by
  unfold applyRef
  rw [List.getElem?_eq_getElem hi]

theorem traverseLoop_length (f : σ → T → σ × T) :
    ∀ (xs : List T) (i : Nat) (s : σ), (traverseLoop f xs i s).1.length = xs.length := by
  intro xs
  induction xs with
  | nil => intro i s; rfl
  | cons x xs ih => intro i s; simp [traverseLoop, ih]

theorem traverse_sameShape (f : σ → T → σ × T) (m : Matrix T) (s : σ) :
    SameShape m (m.traverse f s).m :=
  ⟨rfl, rfl, traverseLoop_length f m.data 0 s⟩

theorem traverseStep_sameShape (f : σ → T → σ × T) (row col : Nat) (run run1 : Run T σ)
    (d : Int × Int) (h : traverseStep f row col run d = some run1) :
    SameShape run.m run1.m := by
  unfold traverseStep at h
  simp only at h
  split at h
  · exact applyRef_sameShape f run run1 _ h
  · simp only [Option.some.injEq] at h
    subst h
    exact SameShape.refl _

theorem traverseAt_sameShape (f : σ → T → σ × T) (m : Matrix T) (row col : Nat) (s : σ)
    (run : Run T σ) (h : m.traverseAt f row col s = some run) : SameShape m run.m := by
  unfold traverseAt at h
  exact foldlM_some_inv (fun b : Run T σ => SameShape m b.m) (traverseStep f row col)
    (fun b a b1 hb hg => hb.trans (traverseStep_sameShape f row col b b1 a hg))
    neighbours_delta _ run (SameShape.refl m) h

theorem traverseStep_total (f : σ → T → σ × T) (row col : Nat) (run : Run T σ)
    (d : Int × Int) (hv : run.m.Valid) :
    ∃ run1, traverseStep f row col run d = some run1 := by
  unfold traverseStep
  simp only
  split
  · next h =>
    have hlt := slot_lt_of_valid run.m hv _ _ h.2.1 h.2.2.2
    exact ⟨_, applyRef_some f run _ hlt⟩
  · exact ⟨run, rfl⟩

theorem traverseAt_total (f : σ → T → σ × T) (m : Matrix T) (hm : m.Valid)
    (row col : Nat) (s : σ) : ∃ run, m.traverseAt f row col s = some run := by
  unfold traverseAt
  obtain ⟨b1, h, _⟩ := foldlM_some_total (fun b : Run T σ => b.m.Valid)
    (traverseStep f row col)
    (fun b a hb => by
      obtain ⟨b1, hb1⟩ := traverseStep_total f row col b a hb
      exact ⟨b1, hb1, (traverseStep_sameShape f row col b b1 a hb1).valid hb⟩)
    neighbours_delta { m := m, st := s, visited := [] } hm
  exact ⟨b1, h⟩

end Matrix

theorem NeighbourIterator.star_assign_sameShape {T : Type} (it : NeighbourIterator)
    (m m1 : Matrix T) (v : T) (h : it.star_assign m v = some m1) : SameShape m m1 := by
  unfold NeighbourIterator.star_assign at h
  split at h
  · simp at h
  · exact Matrix.assign_sameShape m m1 _ _ v h

/-! ## Full traversal -/

namespace Matrix

variable {T σ : Type}

theorem traverseLoop_visited (f : σ → T → σ × T) :
    ∀ (xs : List T) (i : Nat) (s : σ),
      (traverseLoop f xs i s).2.2 = List.range' i xs.length := by
  intro xs
  induction xs with
  | nil => intro i s; rfl
  | cons x xs ih => intro i s; simp [traverseLoop, ih, List.range'_succ]

theorem traverseLoop_pure (g : T → T) :
    ∀ (xs : List T) (i : Nat) (s : σ),
      (traverseLoop (fun (u : σ) x => (u, g x)) xs i s).1 = xs.map g ∧
        (traverseLoop (fun (u : σ) x => (u, g x)) xs i s).2.1 = s := by
  intro xs
  induction xs with
  | nil => intro i s; exact ⟨rfl, rfl⟩
  | cons x xs ih => intro i s; simp [traverseLoop, ih]

/-- The loop over the storage is the sequence of calls `f((*this)(k / cols, k % cols))`
for the slots `k` that remain. -/
theorem traverseLoop_fold (f : σ → T → σ × T) (rows cols : Nat) :
    ∀ (xs pre : List T) (s : σ) (vis : List Nat),
      (Matrix.mk (pre ++ xs) rows cols).Valid →
      (List.range' pre.length xs.length).foldlM
          (fun run k => applyAt f run (k / cols) (k % cols))
          ({ m := Matrix.mk (pre ++ xs) rows cols, st := s, visited := vis } : Run T σ)
        = some { m := Matrix.mk (pre ++ (traverseLoop f xs pre.length s).1) rows cols
                 st := (traverseLoop f xs pre.length s).2.1
                 visited := vis ++ (traverseLoop f xs pre.length s).2.2 } := by
  intro xs
  induction xs with
  | nil =>
    intro pre s vis _
    simp [traverseLoop, List.foldlM]
  | cons x xs ih =>
    intro pre s vis hv
    have hlen : pre.length < (pre ++ x :: xs).length := by simp
    have hslot := slot_div_mod (Matrix.mk (pre ++ x :: xs) rows cols) hv pre.length hlen
    have hget : (pre ++ x :: xs)[pre.length] = x :=
      List.getElem_of_append rfl rfl
    have hset : (pre ++ x :: xs).set pre.length (f s x).2 = (pre ++ [(f s x).2]) ++ xs := by
      simp
    have hv1 : (Matrix.mk ((pre ++ [(f s x).2]) ++ xs) rows cols).Valid := by
      obtain ⟨h1, h2, h3, h4⟩ := hv
      refine ⟨h1, h2, h3, ?_⟩
      simp only [List.length_append, List.length_cons, List.length_nil] at h4 ⊢
      omega
    have hstep : applyAt f (Run.mk (Matrix.mk (pre ++ x :: xs) rows cols) s vis)
        (pre.length / cols) (pre.length % cols)
        = some (Run.mk (Matrix.mk ((pre ++ [(f s x).2]) ++ xs) rows cols) (f s x).1
            (vis ++ [pre.length])) := by
      unfold applyAt
      simp only
      rw [hslot.2.2, applyRef_some f _ _ hlen]
      simp only [hget, hset]
    have ih1 := ih (pre ++ [(f s x).2]) (f s x).1 (vis ++ [pre.length]) hv1
    simp only [List.length_append, List.length_cons, List.length_nil, Nat.zero_add] at ih1
    simp only [List.length_cons, List.range'_succ, List.foldlM, bind, Option.bind, hstep,
      traverseLoop]
    rw [ih1]
    simp

end Matrix

/-! ## Neighbourhood traversal -/

theorem toSize_eq (z : Int) : toSize z = (z % 18446744073709551616).toNat := by
  simp [toSize, SIZE_MOD]

theorem neighbours_delta_range :
    ∀ d ∈ neighbours_delta, -1 ≤ d.1 ∧ d.1 ≤ 1 ∧ -1 ≤ d.2 ∧ d.2 ≤ 1 := by
  decide

/-- For a coordinate `x` with `x + 1` representable, the `size_type` sum `x + d` with
`d` in `{-1, 0, 1}` passes the test `< n` exactly when the integer sum lies in
`[0, n)`, and then both sums agree. -/
theorem addDelta_lt_iff_of_succ (x n : Nat) (d : Int) (hx : x + 1 < SIZE_MOD)
    (hn : n < SIZE_MOD) (hd : -1 ≤ d ∧ d ≤ 1) :
    (addDelta x d < n ↔ (0 ≤ (x : Int) + d ∧ (x : Int) + d < (n : Int))) ∧
      (0 ≤ (x : Int) + d → (x : Int) + d < (n : Int) → addDelta x d = ((x : Int) + d).toNat) := by
  have hn1 : n < 18446744073709551616 := by simpa [SIZE_MOD] using hn
  have hx1 : x + 1 < 18446744073709551616 := by simpa [SIZE_MOD] using hx
  unfold addDelta
  rw [toSize_eq]
  constructor
  · constructor
    · intro h
      omega
    · intro h
      omega
  · intro h1 h2
    omega

theorem addDelta_lt_iff (x n : Nat) (d : Int) (hx : x < n) (hn : n < SIZE_MOD)
    (hd : -1 ≤ d ∧ d ≤ 1) :
    (addDelta x d < n ↔ (0 ≤ (x : Int) + d ∧ (x : Int) + d < (n : Int))) ∧
      (0 ≤ (x : Int) + d → (x : Int) + d < (n : Int) → addDelta x d = ((x : Int) + d).toNat) :=
  addDelta_lt_iff_of_succ x n d (by omega) hn hd

namespace Matrix

variable {T σ : Type}

theorem traverseStep_eq (f : σ → T → σ × T) (r c : Nat) (run : Run T σ) (d : Int × Int)
    (hv : run.m.Valid) (hr : r < run.m.rows_) (hc : c < run.m.cols_)
    (hd : -1 ≤ d.1 ∧ d.1 ≤ 1 ∧ -1 ≤ d.2 ∧ d.2 ≤ 1) :
    traverseStep f r c run d =
      if inGridInt run.m.rows_ run.m.cols_ (offsetInt r c d) then
        applyAt f run (offsetInt r c d).1.toNat (offsetInt r c d).2.toNat
      else some run := by
  obtain ⟨a1, a2⟩ := addDelta_lt_iff r run.m.rows_ d.1 hr hv.1 ⟨hd.1, hd.2.1⟩
  obtain ⟨b1, b2⟩ := addDelta_lt_iff c run.m.cols_ d.2 hc hv.2.1 ⟨hd.2.2.1, hd.2.2.2⟩
  unfold traverseStep inGridInt offsetInt
  simp only [decide_eq_true_eq]
  by_cases h : (0 ≤ (r : Int) + d.1 ∧ (r : Int) + d.1 < (run.m.rows_ : Int)) ∧
      (0 ≤ (c : Int) + d.2 ∧ (c : Int) + d.2 < (run.m.cols_ : Int))
  · have h1 := a1.2 h.1
    have h2 := b1.2 h.2
    rw [if_pos ⟨Nat.zero_le _, h1, Nat.zero_le _, h2⟩, if_pos ⟨h.1.1, h.1.2, h.2.1, h.2.2⟩,
      a2 h.1.1 h.1.2, b2 h.2.1 h.2.2]
  · have hneg : ¬ (0 ≤ addDelta r d.1 ∧ addDelta r d.1 < run.m.rows_ ∧
        0 ≤ addDelta c d.2 ∧ addDelta c d.2 < run.m.cols_) := by
      intro hh
      exact h ⟨a1.1 hh.2.1, b1.1 hh.2.2.2⟩
    have hneg2 : ¬ (0 ≤ (r : Int) + d.1 ∧ (r : Int) + d.1 < (run.m.rows_ : Int) ∧
        0 ≤ (c : Int) + d.2 ∧ (c : Int) + d.2 < (run.m.cols_ : Int)) := by
      intro hh
      exact h ⟨⟨hh.1, hh.2.1⟩, ⟨hh.2.2.1, hh.2.2.2⟩⟩
    rw [if_neg hneg, if_neg hneg2]

/-- The loop over a part `l` of the table is the sequence of calls `f(m(r1, c1))` on
the in-grid cells of `l`. -/
theorem foldlM_traverseStep (f : σ → T → σ × T) (m : Matrix T) (hm : m.Valid) (r c : Nat)
    (hr : r < m.rows_) (hc : c < m.cols_) :
    ∀ (l : List (Int × Int)), (∀ d ∈ l, -1 ≤ d.1 ∧ d.1 ≤ 1 ∧ -1 ≤ d.2 ∧ d.2 ≤ 1) →
      ∀ (run : Run T σ), SameShape m run.m →
        l.foldlM (traverseStep f r c) run =
          ((l.filter (fun d => inGridInt m.rows_ m.cols_ (offsetInt r c d))).map
              (fun d => ((offsetInt r c d).1.toNat, (offsetInt r c d).2.toNat))).foldlM
            (fun run p => applyAt f run p.1 p.2) run := by
  intro l
  induction l with
  | nil => intro _ run _; rfl
  | cons d l ih =>
    intro hl run hs
    have hd := hl d (List.mem_cons_self d l)
    have hl1 : ∀ e ∈ l, -1 ≤ e.1 ∧ e.1 ≤ 1 ∧ -1 ≤ e.2 ∧ e.2 ≤ 1 :=
      fun e he => hl e (List.mem_cons_of_mem d he)
    have hstep := traverseStep_eq f r c run d (hs.valid hm) (hs.1 ▸ hr) (hs.2.1 ▸ hc) hd
    rw [hs.1, hs.2.1] at hstep
    by_cases hin : inGridInt m.rows_ m.cols_ (offsetInt r c d) = true
    · rw [if_pos hin] at hstep
      simp only [List.foldlM, bind, Option.bind, hstep, List.filter_cons, hin, if_true,
        List.map_cons]
      cases hres : applyAt f run (offsetInt r c d).1.toNat (offsetInt r c d).2.toNat with
      | none => rfl
      | some run1 =>
        exact ih hl1 run1 (hs.trans (applyRef_sameShape f run run1 _ hres))
    · rw [if_neg hin] at hstep
      simp only [List.foldlM, bind, Option.bind, hstep, List.filter_cons, hin]
      exact ih hl1 run hs

/-- A sequence of calls `f(m(r1, c1))` on valid cells is defined and records the
slots of these cells in order. -/
theorem foldlM_applyAt_cells (f : σ → T → σ × T) (m : Matrix T) (hm : m.Valid) :
    ∀ (cells : List (Nat × Nat)), (∀ p ∈ cells, p.1 < m.rows_ ∧ p.2 < m.cols_) →
      ∀ (run : Run T σ), SameShape m run.m →
        ∃ run1, cells.foldlM (fun run p => applyAt f run p.1 p.2) run = some run1 ∧
          SameShape m run1.m ∧
          run1.visited = run.visited ++ cells.map (fun p => m.slot p.1 p.2) := by
  intro cells
  induction cells with
  | nil =>
    intro _ run hs
    exact ⟨run, rfl, hs, by simp⟩
  | cons p cells ih =>
    intro hcells run hs
    have hp := hcells p (List.mem_cons_self p cells)
    have hv := hs.valid hm
    have hlt := slot_lt_of_valid run.m hv p.1 p.2 (hs.1 ▸ hp.1) (hs.2.1 ▸ hp.2)
    have hstep := applyRef_some f run (run.m.slot p.1 p.2) hlt
    have hs1 := hs.trans (applyRef_sameShape f run _ _ hstep)
    obtain ⟨run1, h1, h2, h3⟩ := ih (fun q hq => hcells q (List.mem_cons_of_mem p hq)) _ hs1
    refine ⟨run1, ?_, h2, ?_⟩
    · simp only [List.foldlM, bind, Option.bind, applyAt, hstep]
      exact h1
    · rw [h3]
      have hslot : run.m.slot p.1 p.2 = m.slot p.1 p.2 := by
        unfold slot
        rw [hs.2.1]
      simp [hslot]

end Matrix

theorem neighbourCells_valid (rows cols r c : Nat) :
    ∀ p ∈ neighbourCells rows cols r c, p.1 < rows ∧ p.2 < cols := by
  intro p hp
  unfold neighbourCells at hp
  rw [List.mem_map] at hp
  obtain ⟨d, hd, rfl⟩ := hp
  rw [List.mem_filter] at hd
  have h := hd.2
  simp only [inGridInt, decide_eq_true_eq] at h
  constructor
  · simp only
    omega
  · simp only
    omega

theorem neighbourCells_nodup (rows cols r c : Nat) : (neighbourCells rows cols r c).Nodup := by
  unfold neighbourCells
  refine List.Nodup.map_on ?_ (List.Nodup.filter _ (by decide))
  intro d hd e he hde
  rw [List.mem_filter] at hd he
  have h1 := hd.2
  have h2 := he.2
  simp only [inGridInt, offsetInt, decide_eq_true_eq] at h1 h2
  simp only [offsetInt, Prod.mk.injEq] at hde
  apply Prod.ext
  · omega
  · omega

/-! ## The neighbour sequence -/

theorem INT_MAX_eq : INT_MAX = 2147483647 := by
  norm_num [INT_MAX]

theorem neighbours_delta_length : neighbours_delta.length = 8 := rfl

theorem toSize_of_nonneg (k : Int) (h0 : 0 ≤ k) (h1 : k < 18446744073709551616) :
    toSize k = k.toNat := by
  rw [toSize_eq]
  omega

namespace NeighbourIterator

variable {T : Type}

/-- On a cursor inside the table `exists()` is defined and decides `OffsetExists`. -/
theorem exists_spec (m : Matrix T) (row col : Nat) (k : Int) (h0 : 0 ≤ k) (h7 : k ≤ 7) :
    (exists_ ⟨row, col, k⟩ m = some true ∧ OffsetExists m row col k) ∨
      (exists_ ⟨row, col, k⟩ m = some false ∧ ¬ OffsetExists m row col k) := by
  have hk : toSize k = k.toNat := toSize_of_nonneg k h0 (by omega)
  have hlt : k.toNat < neighbours_delta.length := by
    rw [neighbours_delta_length]
    omega
  have hget : neighbours_delta[k.toNat]? = some neighbours_delta[k.toNat] :=
    List.getElem?_eq_getElem hlt
  unfold exists_ get_delta
  simp only [hk, hget]
  by_cases h : addDelta row neighbours_delta[k.toNat].1 < m.rows_ ∧
      addDelta col neighbours_delta[k.toNat].2 < m.cols_
  · left
    refine ⟨?_, h0, neighbours_delta[k.toNat], hget, h.1, h.2⟩
    simp [h.1, h.2]
  · right
    constructor
    · simp only [Option.some.injEq, decide_eq_false_iff_not]
      intro hh
      exact h ⟨hh.2.1, hh.2.2.2⟩
    · rintro ⟨_, d, hd, h1, h2⟩
      rw [Option.mem_def, hget] at hd
      simp only [Option.some.injEq] at hd
      subst hd
      exact h ⟨h1, h2⟩

/-- From a cursor `k` in `-1 .. 7` the loop of `operator++` stops, within the fuel,
at the least `j > k` that is 8 or whose offset exists. -/
theorem incLoop_spec (m : Matrix T) (row col : Nat) :
    ∀ (fuel : Nat) (k : Int), -1 ≤ k → k ≤ 7 → (7 - k).toNat < fuel →
      ∃ j, incLoop fuel ⟨row, col, k⟩ m = some ⟨row, col, j⟩ ∧ k < j ∧ j ≤ 8 ∧
        (j ≤ 7 → OffsetExists m row col j) ∧
        ∀ i, k < i → i < j → ¬ OffsetExists m row col i := by
  intro fuel
  induction fuel with
  | zero =>
    intro k _ _ h
    omega
  | succ fuel ih =>
    intro k h0 h7 hf
    have hne : k ≠ INT_MAX := by
      rw [INT_MAX_eq]
      omega
    have hsz : toSize (k + 1) = (k + 1).toNat := toSize_of_nonneg (k + 1) (by omega) (by omega)
    unfold incLoop
    simp only [hne, if_false, hsz, neighbours_delta_length]
    by_cases hk : k + 1 ≤ 7
    · have hlt : (k + 1).toNat < 8 := by omega
      rw [if_pos hlt]
      rcases exists_spec m row col (k + 1) (by omega) hk with ⟨he, ho⟩ | ⟨he, ho⟩
      · rw [he]
        refine ⟨k + 1, rfl, by omega, by omega, fun _ => ho, ?_⟩
        intro i h1 h2
        omega
      · rw [he]
        obtain ⟨j, hj, hlt1, hle, hex, hmin⟩ := ih (k + 1) (by omega) hk (by omega)
        refine ⟨j, hj, by omega, hle, hex, ?_⟩
        intro i h1 h2
        by_cases hi : i = k + 1
        · rw [hi]
          exact ho
        · exact hmin i (by omega) h2
    · have hlt : ¬ (k + 1).toNat < 8 := by omega
      rw [if_neg hlt]
      have hk8 : k + 1 = 8 := by omega
      refine ⟨8, by rw [hk8], by omega, by omega, by omega, ?_⟩
      intro i h1 h2
      omega

/-- From a cursor at or past the end of the table `operator++` only increments: the
loop condition fails on `neighbours < neighbours_delta.size()` and `exists()` is
not evaluated. -/
theorem incLoop_past_table (m : Matrix T) (row col : Nat) (k : Int) (h8 : 8 ≤ k)
    (hmax : k < INT_MAX) : inc ⟨row, col, k⟩ m = some ⟨row, col, k + 1⟩ := by
  have hne : k ≠ INT_MAX := by omega
  rw [INT_MAX_eq] at hmax
  have hsz : toSize (k + 1) = (k + 1).toNat := toSize_of_nonneg (k + 1) (by omega) (by omega)
  have hlt : ¬ (k + 1).toNat < 8 := by omega
  unfold inc incLoop
  simp only [hne, if_false, hsz, neighbours_delta_length, hlt]

/-- Repeated `operator++` from a cursor in `0 .. 8` reaches cursor 8 within
`8 - k` advances. -/
theorem incN_reaches_end (m : Matrix T) (row col : Nat) :
    ∀ (t : Nat) (k : Int), 0 ≤ k → k ≤ 8 → (8 - k).toNat ≤ t →
      ∃ n, n ≤ t ∧ incN m n ⟨row, col, k⟩ = some ⟨row, col, 8⟩ := by
  intro t
  induction t with
  | zero =>
    intro k h0 h8 ht
    have hk : k = 8 := by omega
    exact ⟨0, le_refl _, by rw [hk]; rfl⟩
  | succ t ih =>
    intro k h0 h8 ht
    by_cases hk : k = 8
    · exact ⟨0, Nat.zero_le _, by rw [hk]; rfl⟩
    · obtain ⟨j, hj, hlt, hle, _, _⟩ := incLoop_spec m row col (neighbours_delta.length + 1) k
        (by omega) (by omega) (by rw [neighbours_delta_length]; omega)
      obtain ⟨n, hn, hreach⟩ := ih j (by omega) hle (by omega)
      refine ⟨n + 1, by omega, ?_⟩
      have hinc : inc ⟨row, col, k⟩ m = some ⟨row, col, j⟩ := hj
      simp only [incN, hinc]
      exact hreach

end NeighbourIterator

/-- For a centre whose successors are representable and dimensions in `size_type`,
the offset of a cursor in `0 .. 7` exists exactly when its integer coordinates lie
in `[0, rows) x [0, cols)`. -/
theorem offsetExists_iff_int {T : Type} (m : Matrix T) (row col : Nat) (k : Int)
    (hrows : m.rows_ < SIZE_MOD) (hcols : m.cols_ < SIZE_MOD)
    (hrow : row + 1 < SIZE_MOD) (hcol : col + 1 < SIZE_MOD) :
    OffsetExists m row col k ↔
      0 ≤ k ∧ ∃ d ∈ neighbours_delta[k.toNat]?,
        inGridInt m.rows_ m.cols_ (offsetInt row col d) = true := by
  have key : ∀ d, neighbours_delta[k.toNat]? = some d →
      ((addDelta row d.1 < m.rows_ ∧ addDelta col d.2 < m.cols_) ↔
        inGridInt m.rows_ m.cols_ (offsetInt row col d) = true) := by
    intro d hd
    have hmem : d ∈ neighbours_delta := List.getElem?_mem hd
    have hr := neighbours_delta_range d hmem
    have a := (addDelta_lt_iff_of_succ row m.rows_ d.1 hrow hrows ⟨hr.1, hr.2.1⟩).1
    have b := (addDelta_lt_iff_of_succ col m.cols_ d.2 hcol hcols ⟨hr.2.2.1, hr.2.2.2⟩).1
    simp only [inGridInt, offsetInt, decide_eq_true_eq]
    rw [a, b]
    tauto
  constructor
  · rintro ⟨h0, d, hd, h1, h2⟩
    exact ⟨h0, d, hd, (key d hd).1 ⟨h1, h2⟩⟩
  · rintro ⟨h0, d, hd, h⟩
    exact ⟨h0, d, hd, ((key d hd).2 h).1, ((key d hd).2 h).2⟩

/-! ## Dereference -/

theorem Matrix.assign_call_of_valid {T : Type} (m : Matrix T) (hm : m.Valid) (r c : Nat)
    (hr : r < m.rows_) (hc : c < m.cols_) (v : T) :
    ∃ m1, m.assign r c v = some m1 ∧ m1.call r c = some v ∧ SameShape m m1 := by
  have hlt := Matrix.slot_lt_of_valid m hm r c hr hc
  refine ⟨{ m with data := m.data.set (m.slot r c) v }, ?_, ?_, ⟨rfl, rfl, by simp⟩⟩
  · simp [Matrix.assign, hlt]
  · simp [Matrix.call, Matrix.slot, List.getElem?_set]
    simpa [Matrix.slot] using hlt

theorem Matrix.call_isSome_of_valid {T : Type} (m : Matrix T) (hm : m.Valid) (r c : Nat)
    (hr : r < m.rows_) (hc : c < m.cols_) : ∃ x, m.call r c = some x := by
  have hlt := Matrix.slot_lt_of_valid m hm r c hr hc
  exact ⟨m.data[m.slot r c], by simp [Matrix.call, List.getElem?_eq_getElem hlt]⟩

/-- When the integer sum `x + d` lies in `[0, n)` with `n` a `size_type` value, the
`size_type` sum is that integer. -/
theorem addDelta_of_inGrid (x n : Nat) (d : Int) (hn : n < SIZE_MOD)
    (h0 : 0 ≤ (x : Int) + d) (h1 : (x : Int) + d < (n : Int)) :
    addDelta x d = ((x : Int) + d).toNat := by
  have hn1 : n < 18446744073709551616 := by simpa [SIZE_MOD] using hn
  unfold addDelta
  rw [toSize_eq]
  omega

/-! ## Iteration -/

namespace Matrix

variable {T σ : Type}

/-- For any centre, the loop over a part `l` of the table is the sequence of calls
`f(m(r1, c1))` on the cells of `l` that pass the bounds test. -/
theorem foldlM_traverseStep_existing (f : σ → T → σ × T) (m : Matrix T) (row col : Nat) :
    ∀ (l : List (Int × Int)) (run : Run T σ), SameShape m run.m →
      l.foldlM (traverseStep f row col) run =
        (existingCellsOf m.rows_ m.cols_ row col l).foldlM
          (fun run p => applyAt f run p.1 p.2) run := by
  intro l
  induction l with
  | nil => intro run _; rfl
  | cons d l ih =>
    intro run hs
    by_cases hin : addDelta row d.1 < m.rows_ ∧ addDelta col d.2 < m.cols_
    · have hc : 0 ≤ addDelta row d.1 ∧ addDelta row d.1 < run.m.rows_ ∧
          0 ≤ addDelta col d.2 ∧ addDelta col d.2 < run.m.cols_ := by
        rw [hs.1, hs.2.1]
        exact ⟨Nat.zero_le _, hin.1, Nat.zero_le _, hin.2⟩
      simp only [List.foldlM, bind, Option.bind, traverseStep, if_pos hc, existingCellsOf,
        List.filter_cons, decide_eq_true hin, if_true, List.map_cons]
      cases hres : applyAt f run (addDelta row d.1) (addDelta col d.2) with
      | none => rfl
      | some run1 => exact ih run1 (hs.trans (applyRef_sameShape f run run1 _ hres))
    · have hc : ¬ (0 ≤ addDelta row d.1 ∧ addDelta row d.1 < run.m.rows_ ∧
          0 ≤ addDelta col d.2 ∧ addDelta col d.2 < run.m.cols_) := by
        rw [hs.1, hs.2.1]
        intro hh
        exact hin ⟨hh.2.1, hh.2.2.2⟩
      simp only [List.foldlM, bind, Option.bind, traverseStep, if_neg hc, existingCellsOf,
        List.filter_cons, decide_eq_false hin]
      exact ih run hs

theorem traverseAt_eq_existing (f : σ → T → σ × T) (m : Matrix T) (row col : Nat) (s : σ) :
    m.traverseAt f row col s =
      (existingCells m.rows_ m.cols_ row col).foldlM (fun run p => applyAt f run p.1 p.2)
        (Run.mk m s []) :=
  foldlM_traverseStep_existing f m row col neighbours_delta (Run.mk m s []) (SameShape.refl m)

end Matrix

theorem existingCellsOf_valid (rows cols row col : Nat) (l : List (Int × Int)) :
    ∀ p ∈ existingCellsOf rows cols row col l, p.1 < rows ∧ p.2 < cols := by
  intro p hp
  unfold existingCellsOf at hp
  rw [List.mem_map] at hp
  obtain ⟨d, hd, rfl⟩ := hp
  rw [List.mem_filter] at hd
  simpa using hd.2

/-- For an in-grid centre the cells that pass the bounds test of the code are the
in-grid cells over the integers. -/
theorem existingCells_eq_neighbourCells (rows cols r c : Nat) (hrows : rows < SIZE_MOD)
    (hcols : cols < SIZE_MOD) (hr : r < rows) (hc : c < cols) :
    existingCells rows cols r c = neighbourCells rows cols r c := by
  have key : ∀ l : List (Int × Int), (∀ d ∈ l, -1 ≤ d.1 ∧ d.1 ≤ 1 ∧ -1 ≤ d.2 ∧ d.2 ≤ 1) →
      existingCellsOf rows cols r c l =
        (l.filter (fun d => inGridInt rows cols (offsetInt r c d))).map
          (fun d => ((offsetInt r c d).1.toNat, (offsetInt r c d).2.toNat)) := by
    intro l
    induction l with
    | nil => intro _; rfl
    | cons d l ih =>
      intro hl
      have hd := hl d (List.mem_cons_self d l)
      have ih1 := ih (fun e he => hl e (List.mem_cons_of_mem d he))
      obtain ⟨a1, a2⟩ := addDelta_lt_iff r rows d.1 hr hrows ⟨hd.1, hd.2.1⟩
      obtain ⟨b1, b2⟩ := addDelta_lt_iff c cols d.2 hc hcols ⟨hd.2.2.1, hd.2.2.2⟩
      unfold existingCellsOf at ih1 ⊢
      by_cases hin : addDelta r d.1 < rows ∧ addDelta c d.2 < cols
      · have h1 := a1.1 hin.1
        have h2 := b1.1 hin.2
        have hint : inGridInt rows cols (offsetInt r c d) = true := by
          simp only [inGridInt, offsetInt, decide_eq_true_eq]
          exact ⟨h1.1, h1.2, h2.1, h2.2⟩
        rw [List.filter_cons_of_pos
            (p := fun d : Int × Int => decide (addDelta r d.1 < rows ∧ addDelta c d.2 < cols))
            (decide_eq_true hin),
          List.filter_cons_of_pos (p := fun d : Int × Int => inGridInt rows cols (offsetInt r c d)) hint,
          List.map_cons, List.map_cons, ih1]
        simp only [offsetInt, a2 h1.1 h1.2, b2 h2.1 h2.2]
      · have hint : inGridInt rows cols (offsetInt r c d) = false := by
          simp only [inGridInt, offsetInt, decide_eq_false_iff_not]
          intro hh
          exact hin ⟨a1.2 ⟨hh.1, hh.2.1⟩, b1.2 ⟨hh.2.2.1, hh.2.2.2⟩⟩
        rw [List.filter_cons_of_neg
            (p := fun d : Int × Int => decide (addDelta r d.1 < rows ∧ addDelta c d.2 < cols))
            (by simpa using hin),
          List.filter_cons_of_neg (p := fun d : Int × Int => inGridInt rows cols (offsetInt r c d))
            (by simp [hint]), ih1]
  exact key neighbours_delta neighbours_delta_range

theorem OffsetExists_congr {T : Type} (m m1 : Matrix T) (hs : SameShape m m1) (row col : Nat)
    (k : Int) : OffsetExists m1 row col k ↔ OffsetExists m row col k := by
  unfold OffsetExists
  rw [hs.1, hs.2.1]

/-- Skipping table entries that do not exist does not change the list of existing
cells. -/
theorem existingCellsOf_drop_skip {T : Type} (m : Matrix T) (row col : Nat) :
    ∀ (n a : Nat), (∀ i : Nat, a ≤ i → i < a + n → ¬ OffsetExists m row col (i : Int)) →
      existingCellsOf m.rows_ m.cols_ row col (neighbours_delta.drop a) =
        existingCellsOf m.rows_ m.cols_ row col (neighbours_delta.drop (a + n)) := by
  intro n
  induction n with
  | zero => intro a _; rfl
  | succ n ih =>
    intro a h
    have ih1 := ih (a + 1) (fun i h1 h2 => h i (by omega) (by omega))
    have hrw : a + (n + 1) = a + 1 + n := by omega
    rw [hrw, ← ih1]
    by_cases ha : a < neighbours_delta.length
    · rw [List.drop_eq_getElem_cons ha]
      have hno := h a (le_refl _) (by omega)
      have hcond : ¬ (addDelta row neighbours_delta[a].1 < m.rows_ ∧
          addDelta col neighbours_delta[a].2 < m.cols_) := by
        intro hh
        apply hno
        refine ⟨Int.natCast_nonneg a, neighbours_delta[a], ?_, hh.1, hh.2⟩
        simp [List.getElem?_eq_getElem ha]
      simp only [existingCellsOf, List.filter_cons, decide_eq_false hcond]
      rfl
    · rw [List.drop_eq_nil_of_le (by omega), List.drop_eq_nil_of_le (by omega)]

/-- Started on a cursor whose offset exists (or on cursor 8), the loop of `for_each`
is the sequence of calls `f(m(r1, c1))` on the existing cells of the rest of the
table, whatever fuel above `8 - k` it is given. -/
theorem NeighbourIterator.for_each_loop_from {T σ : Type} (f : σ → T → σ × T)
    (m : Matrix T) (row col : Nat) :
    ∀ (fuel : Nat) (k : Int) (run : Run T σ), 0 ≤ k → k ≤ 8 →
      (k ≤ 7 → OffsetExists m row col k) → (8 - k).toNat < fuel → SameShape m run.m →
      NeighbourIterator.for_each_loop f fuel ⟨row, col, k⟩ ⟨row, col, 8⟩ run =
        (existingCellsOf m.rows_ m.cols_ row col (neighbours_delta.drop k.toNat)).foldlM
          (fun run p => Matrix.applyAt f run p.1 p.2) run := by
  intro fuel
  induction fuel with
  | zero =>
    intro k run _ _ _ h
    omega
  | succ fuel ih =>
    intro k run h0 h8 hex hf hs
    by_cases hk : k = 8
    · subst hk
      have hd : neighbours_delta.drop (8 : Int).toNat = [] := by decide
      rw [hd]
      simp [NeighbourIterator.for_each_loop, NeighbourIterator.ne, existingCellsOf]
    · have hne : NeighbourIterator.ne ⟨row, col, k⟩ ⟨row, col, 8⟩ = true := by
        simp [NeighbourIterator.ne, hk]
      have hk7 : k ≤ 7 := by omega
      obtain ⟨_, d, hd, hd1, hd2⟩ := hex hk7
      have hlt : k.toNat < neighbours_delta.length := by
        rw [neighbours_delta_length]
        omega
      have hd' : neighbours_delta[k.toNat] = d := by
        rw [Option.mem_def, List.getElem?_eq_getElem hlt] at hd
        exact Option.some.inj hd
      have hdrop : neighbours_delta.drop k.toNat = d :: neighbours_delta.drop (k.toNat + 1) := by
        rw [List.drop_eq_getElem_cons hlt, hd']
      have hget : NeighbourIterator.get_delta ⟨row, col, k⟩ = some d := by
        unfold NeighbourIterator.get_delta
        simp only [toSize_of_nonneg k h0 (by omega)]
        exact hd
      have hcells : existingCellsOf m.rows_ m.cols_ row col
          (d :: neighbours_delta.drop (k.toNat + 1))
          = (addDelta row d.1, addDelta col d.2) ::
            existingCellsOf m.rows_ m.cols_ row col (neighbours_delta.drop (k.toNat + 1)) := by
        unfold existingCellsOf
        rw [List.filter_cons_of_pos
          (p := fun d : Int × Int =>
            decide (addDelta row d.1 < m.rows_ ∧ addDelta col d.2 < m.cols_))
          (decide_eq_true ⟨hd1, hd2⟩), List.map_cons]
      rw [hdrop, hcells]
      simp only [NeighbourIterator.for_each_loop, hne, if_true, NeighbourIterator.star_apply,
        hget, List.foldlM, bind, Option.bind]
      cases hres : Matrix.applyAt f run (addDelta row d.1) (addDelta col d.2) with
      | none => rfl
      | some run1 =>
        have hs1 := hs.trans (Matrix.applyRef_sameShape f run run1 _ hres)
        obtain ⟨j, hj, hlt1, hle, hexj, hmin⟩ := NeighbourIterator.incLoop_spec run1.m row col
          (neighbours_delta.length + 1) k (by omega) hk7
          (by rw [neighbours_delta_length]; omega)
        have hinc : NeighbourIterator.inc ⟨row, col, k⟩ run1.m = some ⟨row, col, j⟩ := hj
        simp only [hinc]
        rw [ih j run1 (by omega) hle
          (fun h => (OffsetExists_congr m run1.m hs1 row col j).1 (hexj h)) (by omega) hs1]
        have hskip := existingCellsOf_drop_skip m row col (j.toNat - (k.toNat + 1))
          (k.toNat + 1) (fun i h1 h2 hex1 =>
            hmin (i : Int) (by omega) (by omega)
              ((OffsetExists_congr m run1.m hs1 row col (i : Int)).2 hex1))
        have hjk : k.toNat + 1 + (j.toNat - (k.toNat + 1)) = j.toNat := by omega
        rw [hjk] at hskip
        rw [hskip]

/-- When the offset of cursor 0 exists, iterating `neighbours(row, col)` from `begin()`
to `end()` is `traverse(f, row, col)`. -/
theorem Matrix.for_each_neighbours_eq_traverseAt {T σ : Type} (f : σ → T → σ × T)
    (m : Matrix T) (row col : Nat) (s : σ) (h0 : OffsetExists m row col 0) :
    m.for_each_neighbours f row col s = m.traverseAt f row col s := by
  rw [Matrix.traverseAt_eq_existing]
  exact NeighbourIterator.for_each_loop_from f m row col (neighbours_delta.length + 1) 0
    (Run.mk m s []) (le_refl _) (by decide) (fun _ => h0) (by decide) (SameShape.refl m)

/-! ## Effect of the neighbourhood traversal -/

namespace Matrix

variable {T σ : Type}

theorem applyRef_frame (f : σ → T → σ × T) (run run1 : Run T σ) (i j : Nat)
    (h : applyRef f run i = some run1) (hij : i ≠ j) :
    run1.m.data[j]? = run.m.data[j]? := by
  unfold applyRef at h
  split at h
  · simp at h
  · simp only [Option.some.injEq] at h
    subst h
    exact List.getElem?_set_ne hij

/-- A sequence of calls `f(m(r1, c1))` leaves every slot that is not the slot of one
of the cells as it was. -/
theorem foldlM_applyAt_frame (f : σ → T → σ × T) (m : Matrix T) :
    ∀ (cells : List (Nat × Nat)) (run run1 : Run T σ), SameShape m run.m →
      cells.foldlM (fun run p => applyAt f run p.1 p.2) run = some run1 →
      ∀ j, (∀ p ∈ cells, m.slot p.1 p.2 ≠ j) → run1.m.data[j]? = run.m.data[j]? := by
  intro cells
  induction cells with
  | nil =>
    intro run run1 _ h j _
    simp only [List.foldlM, pure, Option.some.injEq] at h
    rw [h]
  | cons p cells ih =>
    intro run run1 hs h j hj
    simp only [List.foldlM, bind, Option.bind] at h
    cases hres : applyAt f run p.1 p.2 with
    | none => simp [hres] at h
    | some run2 =>
      simp only [hres] at h
      have hs2 := hs.trans (applyRef_sameShape f run run2 _ hres)
      have hslot : run.m.slot p.1 p.2 = m.slot p.1 p.2 := by
        unfold slot
        rw [hs.2.1]
      have hne : run.m.slot p.1 p.2 ≠ j := by
        rw [hslot]
        exact hj p (List.mem_cons_self p cells)
      rw [ih run2 run1 hs2 h j (fun q hq => hj q (List.mem_cons_of_mem p hq))]
      exact applyRef_frame f run run2 _ j hres hne

/-- The neighbourhood traversal for an in-grid centre: defined, the sequence of calls
on the in-grid neighbour cells, visiting their slots once each. -/
theorem traverseAt_spec (f : σ → T → σ × T) (m : Matrix T) (hm : m.Valid) (r c : Nat)
    (hr : r < m.rows_) (hc : c < m.cols_) (s : σ) :
    ∃ run, m.traverseAt f r c s = some run ∧
      (neighbourCells m.rows_ m.cols_ r c).foldlM (fun run p => applyAt f run p.1 p.2)
        (Run.mk m s []) = some run ∧
      run.visited = (neighbourCells m.rows_ m.cols_ r c).map (fun p => m.slot p.1 p.2) ∧
      run.visited.Nodup ∧ SameShape m run.m := by
  have hvalid := neighbourCells_valid m.rows_ m.cols_ r c
  obtain ⟨run, h1, h2, h3⟩ := foldlM_applyAt_cells f m hm
    (neighbourCells m.rows_ m.cols_ r c) hvalid (Run.mk m s []) (SameShape.refl m)
  have hvis : run.visited = (neighbourCells m.rows_ m.cols_ r c).map
      (fun p => m.slot p.1 p.2) := by
    simpa using h3
  refine ⟨run, ?_, h1, hvis, ?_, h2⟩
  · rw [traverseAt_eq_existing, existingCells_eq_neighbourCells _ _ r c hm.1 hm.2.1 hr hc]
    exact h1
  · rw [hvis]
    refine List.Nodup.map_on ?_ (neighbourCells_nodup m.rows_ m.cols_ r c)
    intro p hp q hq hpq
    obtain ⟨a, b⟩ := slot_inj_of_valid m hm p.1 p.2 q.1 q.2 (hvalid p hp).1
      (hvalid p hp).2 (hvalid q hq).1 (hvalid q hq).2 hpq
    exact Prod.ext a b

end Matrix

/-- For a strictly interior centre every offset of the table is in the grid. -/
theorem neighbourCells_interior (rows cols r c : Nat) (hr1 : 1 ≤ r) (hr2 : r + 1 < rows)
    (hc1 : 1 ≤ c) (hc2 : c + 1 < cols) :
    neighbourCells rows cols r c =
      neighbours_delta.map (fun d => (((r : Int) + d.1).toNat, ((c : Int) + d.2).toNat)) := by
  unfold neighbourCells
  have hall : neighbours_delta.filter (fun d => inGridInt rows cols (offsetInt r c d))
      = neighbours_delta := by
    rw [List.filter_eq_self]
    intro d hd
    have h := neighbours_delta_range d hd
    simp only [inGridInt, offsetInt, decide_eq_true_eq]
    omega
  rw [hall]
  rfl

/-- The offset of cursor 0, `(-1, -1)`, exists for an in-grid centre with `r >= 1` and
`c >= 1`. -/
theorem offsetExists_zero {T : Type} (m : Matrix T) (hm : m.Valid) (r c : Nat)
    (hr : r < m.rows_) (hc : c < m.cols_) (hr1 : 1 ≤ r) (hc1 : 1 ≤ c) :
    OffsetExists m r c 0 := by
  refine ⟨le_refl _, (-1, -1), rfl, ?_, ?_⟩
  · exact (addDelta_lt_iff r m.rows_ (-1) hr hm.1 (by decide)).1.2 (by omega)
  · exact (addDelta_lt_iff c m.cols_ (-1) hc hm.2.1 (by decide)).1.2 (by omega)

/-! ## Frame and out-of-grid centres -/

theorem neighbours_delta_ne_zero : ∀ d ∈ neighbours_delta, d.1 ≠ 0 ∨ d.2 ≠ 0 := by
  decide

/-- A neighbour cell is at distance at most 1 from the centre in each coordinate and
is not the centre. -/
theorem neighbourCells_near (rows cols r c : Nat) :
    ∀ p ∈ neighbourCells rows cols r c,
      ((p.1 : Int) - r ≤ 1 ∧ (r : Int) - p.1 ≤ 1) ∧ ((p.2 : Int) - c ≤ 1 ∧ (c : Int) - p.2 ≤ 1) ∧
        ¬ (p.1 = r ∧ p.2 = c) := by
  intro p hp
  unfold neighbourCells at hp
  rw [List.mem_map] at hp
  obtain ⟨d, hd, rfl⟩ := hp
  rw [List.mem_filter] at hd
  have hrange := neighbours_delta_range d hd.1
  have hne := neighbours_delta_ne_zero d hd.1
  have hin := hd.2
  simp only [inGridInt, offsetInt, decide_eq_true_eq] at hin
  simp only [offsetInt]
  refine ⟨by omega, by omega, ?_⟩
  rintro ⟨h1, h2⟩
  omega

theorem addDelta_neg_one (x : Nat) (h1 : 1 ≤ x) (h2 : x < SIZE_MOD) :
    addDelta x (-1) = x - 1 := by
  have h3 : x < 18446744073709551616 := by simpa [SIZE_MOD] using h2
  unfold addDelta
  rw [toSize_eq]
  omega

theorem addDelta_zero (x : Nat) (h2 : x < SIZE_MOD) : addDelta x 0 = x := by
  have h3 : x < 18446744073709551616 := by simpa [SIZE_MOD] using h2
  unfold addDelta
  rw [toSize_eq]
  omega

theorem addDelta_one (x : Nat) (h2 : x + 1 < SIZE_MOD) : addDelta x 1 = x + 1 := by
  have h3 : x + 1 < 18446744073709551616 := by simpa [SIZE_MOD] using h2
  unfold addDelta
  rw [toSize_eq]
  omega

theorem addDelta_zero_neg_one : addDelta 0 (-1) = SIZE_MOD - 1 := by
  decide

/-- For the centre one row past the last row, the cells that pass the bounds test
are the three cells of the last row above the centre column. -/
theorem existingCells_below_last_row (rows cols c : Nat) (hrows1 : 1 ≤ rows)
    (hrows2 : rows + 1 < SIZE_MOD) (hcols : cols < SIZE_MOD) (hc1 : 1 ≤ c)
    (hc2 : c + 2 ≤ cols) :
    existingCells rows cols rows c = [(rows - 1, c - 1), (rows - 1, c), (rows - 1, c + 1)] := by
  have e1 := addDelta_neg_one rows hrows1 (by omega)
  have e2 := addDelta_zero rows (by omega)
  have e3 := addDelta_one rows hrows2
  have e4 := addDelta_neg_one c hc1 (by omega)
  have e5 := addDelta_zero c (by omega)
  have e6 := addDelta_one c (by omega)
  have a1 : rows - 1 < rows := by omega
  have a3 : ¬ rows + 1 < rows := by omega
  have a4 : c - 1 < cols := by omega
  have a5 : c < cols := by omega
  have a6 : c + 1 < cols := by omega
  simp [existingCells, existingCellsOf, neighbours_delta, List.filter, e1, e2, e3, e4, e5, e6,
    a1, a3, a4, a5, a6]

/-! ## Rendering -/

theorem join_range_succ (g : Nat → String) (n : Nat) :
    String.join ((List.range (n + 1)).map g) = String.join ((List.range n).map g) ++ g n := by
  apply String.ext
  simp [List.range_succ]

/-- A loop over `0 .. n-1` whose step appends `g i` to the stream appends the
concatenation of the `g i`. -/
theorem foldlM_range_append (g : Nat → String) (step : String → Nat → Option String) :
    ∀ (n : Nat), (∀ i, i < n → ∀ os, step os i = some (os ++ g i)) →
      ∀ os, (List.range n).foldlM step os
        = some (os ++ String.join ((List.range n).map g)) := by
  intro n
  induction n with
  | zero =>
    intro _ os
    simp [String.join]
  | succ n ih =>
    intro h os
    have ih1 := ih (fun i hi => h i (Nat.lt_succ_of_lt hi)) os
    rw [List.range_succ, List.foldlM_append, ih1]
    simp only [bind, Option.bind, List.foldlM, h n (Nat.lt_succ_self n), pure]
    rw [← List.range_succ, join_range_succ, String.append_assoc]

theorem count_join_const (a : Char) (k : Nat) :
    ∀ (l : List String), (∀ x ∈ l, x.data.count a = k) →
      (String.join l).data.count a = k * l.length := by
  intro l
  induction l with
  | nil => intro _; simp [String.join]
  | cons x xs ih =>
    intro h
    have h1 := h x (List.mem_cons_self x xs)
    have h2 := ih (fun y hy => h y (List.mem_cons_of_mem x hy))
    rw [String.data_join] at h2 ⊢
    simp only [List.map_cons, List.flatten_cons, List.count_append, h1, h2, List.length_cons]
    ring

namespace Matrix

variable {T : Type}

theorem shl_row_eq (text : T → String) (m : Matrix T) (hm : m.Valid) (r : Nat)
    (hr : r < m.rows_) (os : String) :
    m.shl_row text r os = some (os ++ String.join ((List.range m.cols_).map
      (fun c => (match m.call r c with
        | none => ""
        | some x => text x) ++ " "))) := by
  unfold shl_row
  apply foldlM_range_append
  intro c hc os1
  obtain ⟨x, hx⟩ := call_isSome_of_valid m hm r c hr hc
  simp only [hx]
  rw [String.append_assoc]

theorem shl_eq (text : T → String) (m : Matrix T) (hm : m.Valid) (os : String) :
    m.shl text os = some (os ++ m.gridText text) := by
  unfold shl gridText
  apply foldlM_range_append
  intro r hr os1
  rw [shl_row_eq text m hm r hr os1]
  simp only [lineText]
  rw [String.append_assoc]

theorem lineText_count (text : T → String) (m : Matrix T) (hm : m.Valid)
    (htext : ∀ x, '\n' ∉ (text x).data) (r : Nat) (hr : r < m.rows_) :
    (m.lineText text r).data.count '\n' = 1 := by
  unfold lineText
  rw [String.data_append, List.count_append]
  have h0 := count_join_const '\n' 0 ((List.range m.cols_).map
      (fun c => (match m.call r c with
        | none => ""
        | some x => text x) ++ " ")) (by
    intro y hy
    rw [List.mem_map] at hy
    obtain ⟨c, hc, rfl⟩ := hy
    rw [List.mem_range] at hc
    obtain ⟨x, hx⟩ := call_isSome_of_valid m hm r c hr hc
    simp only [hx, String.data_append, List.count_append]
    have h1 : (text x).data.count '\n' = 0 := List.count_eq_zero.2 (htext x)
    rw [h1]
    rfl)
  rw [h0]
  simp

end Matrix

/-! ## Traversals with an operation that may throw -/

namespace Matrix

variable {T σ ε : Type}

theorem traverseLoopE_length (f : σ → T → (σ × T) × Option ε) :
    ∀ (xs : List T) (i : Nat) (s : σ), (traverseLoopE f xs i s).1.1.length = xs.length := by
  intro xs
  induction xs with
  | nil => intro i s; rfl
  | cons x xs ih =>
    intro i s
    unfold traverseLoopE
    cases h : (f s x).2 with
    | none => simp [ih]
    | some e => simp

/-- The loop over the storage when the first exception is thrown on the element that
follows the prefix `pre`. -/
theorem traverseLoopE_fail (f : σ → T → (σ × T) × Option ε) (x : T) (post : List T) (e : ε) :
    ∀ (pre : List T) (i : Nat) (s : σ),
      (traverseLoopE f pre i s).2 = none →
      (f (traverseLoopE f pre i s).1.2.1 x).2 = some e →
      traverseLoopE f (pre ++ x :: post) i s =
        (((traverseLoopE f pre i s).1.1 ++
            (f (traverseLoopE f pre i s).1.2.1 x).1.2 :: post,
          (f (traverseLoopE f pre i s).1.2.1 x).1.1,
          List.range' i (pre.length + 1)), some e) := by
  intro pre
  induction pre with
  | nil =>
    intro i s _ hfail
    simp only [traverseLoopE] at hfail
    simp only [List.nil_append, traverseLoopE, hfail, List.length_nil, Nat.zero_add]
    rfl
  | cons y pre ih =>
    intro i s hpre hfail
    cases hy : (f s y).2 with
    | some e1 =>
      simp only [traverseLoopE, hy] at hpre
      exact absurd hpre (by simp)
    | none =>
      simp only [traverseLoopE, hy] at hpre hfail
      have ih1 := ih (i + 1) (f s y).1.1 hpre hfail
      have hcons : (y :: pre) ++ x :: post = y :: (pre ++ x :: post) := rfl
      have hstep : traverseLoopE f (y :: (pre ++ x :: post)) i s
          = (((f s y).1.2 :: (traverseLoopE f (pre ++ x :: post) (i + 1) (f s y).1.1).1.1,
              (traverseLoopE f (pre ++ x :: post) (i + 1) (f s y).1.1).1.2.1,
              i :: (traverseLoopE f (pre ++ x :: post) (i + 1) (f s y).1.1).1.2.2),
            (traverseLoopE f (pre ++ x :: post) (i + 1) (f s y).1.1).2) := by
        rw [traverseLoopE]
        simp only [hy]
      rw [hcons, hstep, ih1]
      simp only [traverseLoopE, hy, List.cons_append, List.length_cons]
      rw [List.range'_succ i]

theorem applyRefE_spec (f : σ → T → (σ × T) × Option ε) (run run1 : Run T σ) (i : Nat)
    (oe : Option ε) (h : applyRefE f run i = some (run1, oe)) :
    SameShape run.m run1.m ∧ run1.visited = run.visited ++ [i] ∧
      ∀ j, i ≠ j → run1.m.data[j]? = run.m.data[j]? := by
  unfold applyRefE at h
  split at h
  · simp at h
  · simp only [Option.some.injEq, Prod.mk.injEq] at h
    obtain ⟨h1, _⟩ := h
    subst h1
    exact ⟨⟨rfl, rfl, by simp⟩, rfl, fun j hij => List.getElem?_set_ne hij⟩

/-- For any centre, the loop over a part `l` of the table with a callable that may
throw is the sequence of calls on the cells of `l` that pass the bounds test, up to
the first exception. -/
theorem traverseStepsE_eq (f : σ → T → (σ × T) × Option ε) (m : Matrix T) (row col : Nat) :
    ∀ (l : List (Int × Int)) (run : Run T σ), SameShape m run.m →
      traverseStepsE f row col l run
        = applyCellsE f (existingCellsOf m.rows_ m.cols_ row col l) run := by
  intro l
  induction l with
  | nil => intro run _; rfl
  | cons d l ih =>
    intro run hs
    by_cases hin : addDelta row d.1 < m.rows_ ∧ addDelta col d.2 < m.cols_
    · have hc : 0 ≤ addDelta row d.1 ∧ addDelta row d.1 < run.m.rows_ ∧
          0 ≤ addDelta col d.2 ∧ addDelta col d.2 < run.m.cols_ := by
        rw [hs.1, hs.2.1]
        exact ⟨Nat.zero_le _, hin.1, Nat.zero_le _, hin.2⟩
      have hcells : existingCellsOf m.rows_ m.cols_ row col (d :: l)
          = (addDelta row d.1, addDelta col d.2) :: existingCellsOf m.rows_ m.cols_ row col l := by
        unfold existingCellsOf
        rw [List.filter_cons_of_pos
          (p := fun d : Int × Int =>
            decide (addDelta row d.1 < m.rows_ ∧ addDelta col d.2 < m.cols_))
          (decide_eq_true hin), List.map_cons]
      rw [hcells]
      simp only [traverseStepsE, if_pos hc, applyCellsE]
      cases hres : applyAtE f run (addDelta row d.1) (addDelta col d.2) with
      | none => rfl
      | some res =>
        obtain ⟨run1, oe⟩ := res
        cases oe with
        | some e => rfl
        | none =>
          exact ih run1 (hs.trans (applyRefE_spec f run run1 _ none hres).1)
    · have hc : ¬ (0 ≤ addDelta row d.1 ∧ addDelta row d.1 < run.m.rows_ ∧
          0 ≤ addDelta col d.2 ∧ addDelta col d.2 < run.m.cols_) := by
        rw [hs.1, hs.2.1]
        intro hh
        exact hin ⟨hh.2.1, hh.2.2.2⟩
      have hcells : existingCellsOf m.rows_ m.cols_ row col (d :: l)
          = existingCellsOf m.rows_ m.cols_ row col l := by
        unfold existingCellsOf
        rw [List.filter_cons_of_neg
          (p := fun d : Int × Int =>
            decide (addDelta row d.1 < m.rows_ ∧ addDelta col d.2 < m.cols_))
          (by simpa using hin)]
      rw [hcells]
      simp only [traverseStepsE, if_neg hc]
      exact ih run hs

/-- The calls on a list of cells when the first exception is thrown on the cell that
follows the prefix `l1`. -/
theorem applyCellsE_fail (f : σ → T → (σ × T) × Option ε) (p : Nat × Nat)
    (l2 : List (Nat × Nat)) (runj run1 : Run T σ) (e : ε) :
    ∀ (l1 : List (Nat × Nat)) (run : Run T σ),
      applyCellsE f l1 run = some (runj, none) →
      applyAtE f runj p.1 p.2 = some (run1, some e) →
      applyCellsE f (l1 ++ p :: l2) run = some (run1, some e) := by
  intro l1
  induction l1 with
  | nil =>
    intro run hpre hfail
    simp only [applyCellsE, Option.some.injEq, Prod.mk.injEq, and_true] at hpre
    subst hpre
    simp only [List.nil_append, applyCellsE, hfail]
  | cons q l1 ih =>
    intro run hpre hfail
    simp only [applyCellsE] at hpre
    simp only [List.cons_append, applyCellsE]
    cases hres : applyAtE f run q.1 q.2 with
    | none => simp [hres] at hpre
    | some res =>
      obtain ⟨run2, oe⟩ := res
      cases oe with
      | some e1 => simp [hres] at hpre
      | none =>
        simp only [hres] at hpre
        exact ih run2 hpre hfail

/-- Calls on a list of cells that throw no exception visit the slots of the cells in
order and leave every other slot as it was. -/
theorem applyCellsE_ok (f : σ → T → (σ × T) × Option ε) (m : Matrix T) :
    ∀ (l : List (Nat × Nat)) (run run1 : Run T σ), SameShape m run.m →
      applyCellsE f l run = some (run1, none) →
      SameShape m run1.m ∧
        run1.visited = run.visited ++ l.map (fun p => m.slot p.1 p.2) ∧
        ∀ j, j ∉ l.map (fun p => m.slot p.1 p.2) → run1.m.data[j]? = run.m.data[j]? := by
  intro l
  induction l with
  | nil =>
    intro run run1 hs h
    simp only [applyCellsE, Option.some.injEq, Prod.mk.injEq, and_true] at h
    subst h
    exact ⟨hs, by simp, fun _ _ => rfl⟩
  | cons q l ih =>
    intro run run1 hs h
    simp only [applyCellsE] at h
    cases hres : applyAtE f run q.1 q.2 with
    | none => simp [hres] at h
    | some res =>
      obtain ⟨run2, oe⟩ := res
      cases oe with
      | some e1 => simp [hres] at h
      | none =>
        simp only [hres] at h
        obtain ⟨a1, a2, a3⟩ := applyRefE_spec f run run2 _ none hres
        obtain ⟨b1, b2, b3⟩ := ih run2 run1 (hs.trans a1) h
        have hslot : run.m.slot q.1 q.2 = m.slot q.1 q.2 := by
          unfold slot
          rw [hs.2.1]
        refine ⟨b1, ?_, ?_⟩
        · rw [b2, a2, hslot]
          simp
        · intro j hj
          simp only [List.map_cons, List.mem_cons, not_or] at hj
          rw [b3 j hj.2]
          exact a3 j (by rw [hslot]; exact fun h => hj.1 h.symm)

/-- With a callable that never throws, the loop over the storage is the loop of
`traverse(f)` and reports no exception. -/
theorem traverseLoopE_no_throw (f : σ → T → σ × T) :
    ∀ (xs : List T) (i : Nat) (s : σ),
      traverseLoopE (fun u x => (f u x, (none : Option ε))) xs i s
        = (traverseLoop f xs i s, none) := by
  intro xs
  induction xs with
  | nil => intro i s; rfl
  | cons x xs ih =>
    intro i s
    simp only [traverseLoopE, traverseLoop, ih]

/-- With a callable that never throws, the loop over the table is the loop of
`traverse(f, row, col)` and reports no exception. -/
theorem traverseStepsE_no_throw (f : σ → T → σ × T) (row col : Nat) :
    ∀ (l : List (Int × Int)) (run : Run T σ),
      traverseStepsE (fun u x => (f u x, (none : Option ε))) row col l run
        = (l.foldlM (traverseStep f row col) run).map (fun r => (r, none)) := by
  intro l
  induction l with
  | nil => intro run; rfl
  | cons d l ih =>
    intro run
    by_cases hc : 0 ≤ addDelta row d.1 ∧ addDelta row d.1 < run.m.rows_ ∧
        0 ≤ addDelta col d.2 ∧ addDelta col d.2 < run.m.cols_
    · simp only [traverseStepsE, if_pos hc, List.foldlM, traverseStep, bind, Option.bind,
        applyAtE, applyAt, applyRefE, applyRef]
      cases hget : run.m.data[run.m.slot (addDelta row d.1) (addDelta col d.2)]? with
      | none => rfl
      | some x => exact ih _
    · simp only [traverseStepsE, if_neg hc, List.foldlM, traverseStep, bind, Option.bind]
      exact ih run

end Matrix

/-! ## Claims -/

/-- C1. Read-after-write: in a grid satisfying the data-model invariant, for valid
coordinates `(r, c)` the assignment `m(r, c) = v` is a defined write, and a read of
`m(r, c)` on the grid it leaves returns `v`. -/
theorem C1_read_after_write {T : Type} (m : Matrix T) (hm : m.Valid) (r c : Nat)
    (hr : r < m.rows) (hc : c < m.cols) (v : T) :
    ∃ m1, m.assign r c v = some m1 ∧ m1.call r c = some v := by
  have hlt := Matrix.slot_lt_of_valid m hm r c hr hc
  refine ⟨{ m with data := m.data.set (m.slot r c) v }, ?_, ?_⟩
  · simp [Matrix.assign, hlt]
  · simp [Matrix.call, Matrix.slot, List.getElem?_set]
    simpa [Matrix.slot] using hlt

/-- Witness of C1 on the 10 x 10 grid of `Int`, writing 7 at `(3, 4)`. -/
theorem C1_read_after_write_witness :
    (Matrix.create 10 10 : Matrix Int).Valid ∧ 3 < (Matrix.create 10 10 : Matrix Int).rows ∧
      4 < (Matrix.create 10 10 : Matrix Int).cols ∧
      ∃ m1, (Matrix.create 10 10 : Matrix Int).assign 3 4 7 = some m1 ∧
        m1.call 3 4 = some 7 :=
  ⟨by decide, by decide, by decide,
    C1_read_after_write (Matrix.create 10 10 : Matrix Int) (by decide) 3 4
      (by decide) (by decide) 7⟩

/-- C2 (as stated, refuted). `Matrix(2^32, 2^32)` reports `rows() = cols() = 2^32`,
but the `size_type` product `cols * rows` wraps to 0, so its storage is empty and
does not hold `rows * cols` elements. -/
theorem C2_constructor_overflow :
    (Matrix.create (2 ^ 32) (2 ^ 32) : Matrix Int).rows = 2 ^ 32 ∧
      (Matrix.create (2 ^ 32) (2 ^ 32) : Matrix Int).cols = 2 ^ 32 ∧
      (Matrix.create (2 ^ 32) (2 ^ 32) : Matrix Int).data = [] ∧
      ¬ ((Matrix.create (2 ^ 32) (2 ^ 32) : Matrix Int).data.length
          = (Matrix.create (2 ^ 32) (2 ^ 32) : Matrix Int).rows
            * (Matrix.create (2 ^ 32) (2 ^ 32) : Matrix Int).cols) := by
  decide

/-- C2 (amended). For dimensions whose product fits `size_type`, `Matrix(rows, cols)`
has `rows() = rows`, `cols() = cols` and a storage of exactly `rows * cols`
default-valued elements (in general it holds `(cols * rows) mod 2^64` of them); and
on a grid with `storage.length = rows * cols` every mutating operation that is
defined (element write through `operator()`, `traverse(f)`, `traverse(f, r, c)`, write
through a neighbour-sequence reference) leaves `rows()`, `cols()` unchanged and
`storage.length = rows * cols` true; both traversals are always defined there. -/
theorem C2_storage_size_invariant {T : Type} [Inhabited T] (rows cols : Nat)
    (hr : rows < SIZE_MOD) (hc : cols < SIZE_MOD) (hprod : rows * cols < SIZE_MOD)
    (m : Matrix T) (hm : m.Valid) :
    ((Matrix.create rows cols : Matrix T).rows = rows ∧
      (Matrix.create rows cols : Matrix T).cols = cols ∧
      (Matrix.create rows cols : Matrix T).data
        = List.replicate ((cols * rows) % SIZE_MOD) default ∧
      (Matrix.create rows cols : Matrix T).data = List.replicate (rows * cols) default ∧
      (Matrix.create rows cols : Matrix T).data.length = rows * cols ∧
      (Matrix.create rows cols : Matrix T).Valid) ∧
    (∀ (r c : Nat) (v : T) (m1 : Matrix T), m.assign r c v = some m1 →
      m1.rows = m.rows ∧ m1.cols = m.cols ∧ m1.data.length = m1.rows * m1.cols) ∧
    (∀ (σ : Type) (f : σ → T → σ × T) (s : σ),
      (m.traverse f s).m.rows = m.rows ∧ (m.traverse f s).m.cols = m.cols ∧
        (m.traverse f s).m.data.length = (m.traverse f s).m.rows * (m.traverse f s).m.cols) ∧
    (∀ (σ : Type) (f : σ → T → σ × T) (r c : Nat) (s : σ),
      ∃ run, m.traverseAt f r c s = some run ∧
        run.m.rows = m.rows ∧ run.m.cols = m.cols ∧
        run.m.data.length = run.m.rows * run.m.cols) ∧
    (∀ (it : NeighbourIterator) (v : T) (m1 : Matrix T), it.star_assign m v = some m1 →
      m1.rows = m.rows ∧ m1.cols = m.cols ∧ m1.data.length = m1.rows * m1.cols) := by
  have key : ∀ m1 : Matrix T, SameShape m m1 →
      m1.rows = m.rows ∧ m1.cols = m.cols ∧ m1.data.length = m1.rows * m1.cols := by
    intro m1 h
    exact ⟨h.1, h.2.1, (h.valid hm).2.2.2⟩
  have hmod : (cols * rows) % SIZE_MOD = rows * cols := by
    rw [Nat.mul_comm cols rows]
    exact Nat.mod_eq_of_lt hprod
  refine ⟨⟨rfl, rfl, rfl, ?_, ?_, ?_⟩, ?_, ?_, ?_, ?_⟩
  · simp [Matrix.create, hmod]
  · simp [Matrix.create, hmod]
  · exact ⟨hr, hc, hprod, by simp [Matrix.create, hmod]⟩
  · intro r c v m1 h
    exact key m1 (Matrix.assign_sameShape m m1 r c v h)
  · intro σ f s
    exact key _ (Matrix.traverse_sameShape f m s)
  · intro σ f r c s
    obtain ⟨run, hrun⟩ := Matrix.traverseAt_total f m hm r c s
    exact ⟨run, hrun, key _ (Matrix.traverseAt_sameShape f m r c s run hrun)⟩
  · intro it v m1 h
    exact key m1 (it.star_assign_sameShape m m1 v h)

/-- Witness of C2 (amended): dimensions 10 x 10 and the 10 x 10 grid of `Int`. -/
theorem C2_storage_size_invariant_witness :
    (10 : Nat) * 10 < SIZE_MOD ∧ (Matrix.create 10 10 : Matrix Int).Valid ∧
      (Matrix.create 10 10 : Matrix Int).data.length = 10 * 10 ∧
      ∀ (r c : Nat) (v : Int) (m1 : Matrix Int),
        (Matrix.create 10 10 : Matrix Int).assign r c v = some m1 →
        m1.rows = 10 ∧ m1.cols = 10 ∧ m1.data.length = m1.rows * m1.cols :=
  have h := C2_storage_size_invariant (T := Int) 10 10 (by decide) (by decide) (by decide)
    (Matrix.create 10 10 : Matrix Int) (by decide)
  ⟨by decide, by decide, h.1.2.2.2.2.1, h.2.1⟩

/-- C3. Index bijection: in a grid satisfying the data-model invariant, the subscript
`row * cols_ + col` computed by `operator()` equals `r * cols + c` on valid
coordinates, is below `storage.length`, is injective on valid coordinates, and
every storage slot is the subscript of some valid coordinate; so it is a bijection
from the valid coordinates onto the storage slots. -/
theorem C3_index_bijection {T : Type} (m : Matrix T) (hm : m.Valid) :
    (∀ r c, r < m.rows → c < m.cols →
      m.slot r c = r * m.cols + c ∧ m.slot r c < m.data.length) ∧
    (∀ r c r1 c1, r < m.rows → c < m.cols → r1 < m.rows → c1 < m.cols →
      m.slot r c = m.slot r1 c1 → r = r1 ∧ c = c1) ∧
    (∀ i, i < m.data.length → ∃ r c, r < m.rows ∧ c < m.cols ∧ m.slot r c = i) ∧
    m.data.length = m.rows * m.cols ∧
    Set.BijOn (fun p : Nat × Nat => m.slot p.1 p.2)
      {p | p.1 < m.rows ∧ p.2 < m.cols} {i | i < m.data.length} := by
  have h1 : ∀ r c, r < m.rows → c < m.cols →
      m.slot r c = r * m.cols + c ∧ m.slot r c < m.data.length :=
    fun r c hr hc => ⟨Matrix.slot_eq_of_valid m hm r c hr hc, Matrix.slot_lt_of_valid m hm r c hr hc⟩
  have h2 : ∀ r c r1 c1, r < m.rows → c < m.cols → r1 < m.rows → c1 < m.cols →
      m.slot r c = m.slot r1 c1 → r = r1 ∧ c = c1 :=
    fun r c r1 c1 hr hc hr1 hc1 h => Matrix.slot_inj_of_valid m hm r c r1 c1 hr hc hr1 hc1 h
  have h3 : ∀ i, i < m.data.length → ∃ r c, r < m.rows ∧ c < m.cols ∧ m.slot r c = i :=
    fun i hi => ⟨i / m.cols_, i % m.cols_, Matrix.slot_div_mod m hm i hi⟩
  refine ⟨h1, h2, h3, hm.2.2.2, ?_, ?_, ?_⟩
  · intro p hp
    exact (h1 p.1 p.2 hp.1 hp.2).2
  · intro p hp q hq hpq
    obtain ⟨ha, hb⟩ := h2 p.1 p.2 q.1 q.2 hp.1 hp.2 hq.1 hq.2 hpq
    exact Prod.ext ha hb
  · intro i hi
    obtain ⟨r, c, hr, hc, hrc⟩ := h3 i hi
    exact ⟨(r, c), ⟨hr, hc⟩, hrc⟩

/-- Witness of C3 on the 3 x 4 grid of `Int`: the subscript of `(2, 3)` is 11. -/
theorem C3_index_bijection_witness :
    (Matrix.create 3 4 : Matrix Int).Valid ∧
      (Matrix.create 3 4 : Matrix Int).slot 2 3 = 2 * (Matrix.create 3 4 : Matrix Int).cols + 3 ∧
      (Matrix.create 3 4 : Matrix Int).slot 2 3 < (Matrix.create 3 4 : Matrix Int).data.length :=
  ⟨by decide,
    (C3_index_bijection (Matrix.create 3 4 : Matrix Int) (by decide)).1 2 3
      (by decide) (by decide)⟩

/-- C4. Full traversal: on a grid satisfying the data-model invariant, `traverse(f)`
hands to `f` exactly the slots `0, 1, ..., rows * cols - 1` in this order (so
`rows * cols` applications, every storage element exactly once); the `k`-th
application is to the cell `(k / cols, k mod cols)`, and the cell `(r, c)` is the
`(r * cols + c)`-th one visited (row-major order); the whole traversal is the
sequence of calls `f(m(k / cols, k mod cols))` for `k = 0, ..., rows * cols - 1`,
each updating its element in place; the shape is unchanged, and for an operation
without captured state the new storage is the old one mapped through it. On the
10 x 10 grid of ones of `main` the accumulating lambda sums to 100. -/
theorem C4_full_traversal {T σ : Type} (m : Matrix T) (hm : m.Valid)
    (f : σ → T → σ × T) (s : σ) :
    (m.traverse f s).visited = List.range (m.rows * m.cols) ∧
    (m.traverse f s).visited.length = m.rows * m.cols ∧
    (m.traverse f s).visited.Nodup ∧
    (∀ i, i ∈ (m.traverse f s).visited ↔ i < m.data.length) ∧
    (∀ k, k < m.rows * m.cols →
      k / m.cols < m.rows ∧ k % m.cols < m.cols ∧
        (m.traverse f s).visited[k]? = some (m.slot (k / m.cols) (k % m.cols))) ∧
    (∀ r c, r < m.rows → c < m.cols →
      (m.traverse f s).visited[r * m.cols + c]? = some (m.slot r c)) ∧
    (List.range (m.rows * m.cols)).foldlM
        (fun run k => Matrix.applyAt f run (k / m.cols) (k % m.cols))
        (Run.mk m s []) = some (m.traverse f s) ∧
    ((m.traverse f s).m.rows = m.rows ∧ (m.traverse f s).m.cols = m.cols ∧
      (m.traverse f s).m.data.length = m.data.length) ∧
    (∀ g : T → T, (m.traverse (fun (u : σ) x => (u, g x)) s).m.data = m.data.map g ∧
      (m.traverse (fun (u : σ) x => (u, g x)) s).st = s) ∧
    (main_ones.data = List.replicate 100 1 ∧ main_ones.rows = 10 ∧ main_ones.cols = 10 ∧
      (main_ones.traverse sum_lambda 0).st = 100 ∧
      (main_ones.traverse sum_lambda 0).m = main_ones) := by
  have hlen : m.data.length = m.rows * m.cols := hm.2.2.2
  have hvis : (m.traverse f s).visited = List.range (m.rows * m.cols) := by
    show (Matrix.traverseLoop f m.data 0 s).2.2 = _
    rw [Matrix.traverseLoop_visited, hlen, List.range_eq_range']
  have hkth : ∀ k, k < m.rows * m.cols →
      k / m.cols < m.rows ∧ k % m.cols < m.cols ∧
        (m.traverse f s).visited[k]? = some (m.slot (k / m.cols) (k % m.cols)) := by
    intro k hk
    obtain ⟨h1, h2, h3⟩ := Matrix.slot_div_mod m hm k (hlen ▸ hk)
    have h4 : m.slot (k / m.cols) (k % m.cols) = k := h3
    refine ⟨h1, h2, ?_⟩
    rw [hvis, h4, List.getElem?_range hk]
  refine ⟨hvis, ?_, ?_, ?_, hkth, ?_, ?_, ?_, ?_, ?_⟩
  · rw [hvis, List.length_range]
  · rw [hvis]
    exact List.nodup_range _
  · intro i
    rw [hvis, List.mem_range, hlen]
  · intro r c hr hc
    have h1 := Matrix.slot_eq_of_valid m hm r c hr hc
    have h2 := Matrix.slot_lt_of_valid m hm r c hr hc
    rw [hvis, h1]
    rw [h1, hlen] at h2
    exact List.getElem?_range h2
  · have h := Matrix.traverseLoop_fold f m.rows_ m.cols_ m.data [] s [] hm
    simp only [List.length_nil, List.nil_append] at h
    rw [List.range_eq_range', ← hlen]
    exact h
  · exact ⟨rfl, rfl, Matrix.traverseLoop_length f m.data 0 s⟩
  · intro g
    exact Matrix.traverseLoop_pure g m.data 0 s
  · set_option maxRecDepth 20000 in decide

/-- Witness of C4: the 10 x 10 grid of ones of `main` with the accumulating lambda. -/
theorem C4_full_traversal_witness :
    main_ones.Valid ∧
      (main_ones.traverse sum_lambda 0).visited = List.range (main_ones.rows * main_ones.cols) ∧
      (main_ones.traverse sum_lambda 0).visited.length = main_ones.rows * main_ones.cols :=
  have h := C4_full_traversal main_ones (by decide) sum_lambda 0
  ⟨by decide, h.1, h.2.1⟩

/-- C5. Neighbourhood traversal: on a grid satisfying the data-model invariant and for
an in-grid centre `(r, c)`, `traverse(f, r, c)` is defined and is exactly the
sequence of calls `f(m(r + dr, c + dc))` for the offsets `(dr, dc)` of the table, in
table order, whose integer coordinates lie in `[0, rows) x [0, cols)`: the slots handed
to `f` are those of these cells, in this order, without repetition, and an offset
falling outside the grid leaves the run as it is (no call, no storage access). -/
theorem C5_neighbourhood_traversal {T σ : Type} (m : Matrix T) (hm : m.Valid) (r c : Nat)
    (hr : r < m.rows) (hc : c < m.cols) (f : σ → T → σ × T) (s : σ) :
    ∃ run, m.traverseAt f r c s = some run ∧
      run.visited = (neighbourCells m.rows m.cols r c).map (fun p => m.slot p.1 p.2) ∧
      (neighbourCells m.rows m.cols r c).foldlM (fun run p => Matrix.applyAt f run p.1 p.2)
        (Run.mk m s []) = some run ∧
      (neighbourCells m.rows m.cols r c).Nodup ∧ run.visited.Nodup ∧
      (∀ p ∈ neighbourCells m.rows m.cols r c, p.1 < m.rows ∧ p.2 < m.cols) ∧
      (∀ p : Nat × Nat, p ∈ neighbourCells m.rows m.cols r c ↔
        ∃ d ∈ neighbours_delta, (0 ≤ (r : Int) + d.1 ∧ (r : Int) + d.1 < (m.rows : Int) ∧
          0 ≤ (c : Int) + d.2 ∧ (c : Int) + d.2 < (m.cols : Int)) ∧
          (p.1 : Int) = (r : Int) + d.1 ∧ (p.2 : Int) = (c : Int) + d.2) ∧
      (∀ d ∈ neighbours_delta, ¬ (0 ≤ (r : Int) + d.1 ∧ (r : Int) + d.1 < (m.rows : Int) ∧
          0 ≤ (c : Int) + d.2 ∧ (c : Int) + d.2 < (m.cols : Int)) →
        ∀ run0 : Run T σ, SameShape m run0.m →
          Matrix.traverseStep f r c run0 d = some run0) := by
  have hvalid := neighbourCells_valid m.rows_ m.cols_ r c
  have hnodup := neighbourCells_nodup m.rows_ m.cols_ r c
  obtain ⟨run, h1, _, h3⟩ := Matrix.foldlM_applyAt_cells f m hm
    (neighbourCells m.rows_ m.cols_ r c) hvalid (Run.mk m s []) (SameShape.refl m)
  have hfold := Matrix.foldlM_traverseStep f m hm r c hr hc neighbours_delta
    neighbours_delta_range (Run.mk m s []) (SameShape.refl m)
  have hvis : run.visited = (neighbourCells m.rows m.cols r c).map (fun p => m.slot p.1 p.2) := by
    simpa using h3
  refine ⟨run, ?_, hvis, h1, hnodup, ?_, hvalid, ?_, ?_⟩
  · unfold Matrix.traverseAt
    rw [hfold]
    exact h1
  · rw [hvis]
    refine List.Nodup.map_on ?_ hnodup
    intro p hp q hq hpq
    obtain ⟨a, b⟩ := Matrix.slot_inj_of_valid m hm p.1 p.2 q.1 q.2 (hvalid p hp).1
      (hvalid p hp).2 (hvalid q hq).1 (hvalid q hq).2 hpq
    exact Prod.ext a b
  · intro p
    unfold neighbourCells
    simp only [List.mem_map, List.mem_filter, inGridInt, offsetInt, decide_eq_true_eq,
      Matrix.rows, Matrix.cols]
    constructor
    · rintro ⟨d, ⟨hd, hin⟩, rfl⟩
      refine ⟨d, hd, hin, ?_, ?_⟩
      · simp only
        omega
      · simp only
        omega
    · rintro ⟨d, hd, hin, e1, e2⟩
      refine ⟨d, ⟨hd, hin⟩, ?_⟩
      apply Prod.ext
      · simp only
        omega
      · simp only
        omega
  · intro d hd hout run0 hs
    have hstep := Matrix.traverseStep_eq f r c run0 d (hs.valid hm) (hs.1 ▸ hr) (hs.2.1 ▸ hc)
      (neighbours_delta_range d hd)
    rw [hstep, hs.1, hs.2.1, if_neg]
    simpa [inGridInt, offsetInt] using hout

/-- Witness of C5: centre `(0, 2)` of the 10 x 10 grid of ones with the lambda
`el = 0`; the five in-grid neighbours are `(0,1), (0,3), (1,1), (1,2), (1,3)`. -/
theorem C5_neighbourhood_traversal_witness :
    main_ones.Valid ∧ 0 < main_ones.rows ∧ 2 < main_ones.cols ∧
      neighbourCells main_ones.rows main_ones.cols 0 2
        = [(0, 1), (0, 3), (1, 1), (1, 2), (1, 3)] ∧
      ∃ run, main_ones.traverseAt (fun (u : Unit) (_ : Int) => (u, (0 : Int))) 0 2 () = some run ∧
        run.visited = (neighbourCells main_ones.rows main_ones.cols 0 2).map
          (fun p => main_ones.slot p.1 p.2) :=
  have h := C5_neighbourhood_traversal main_ones (by decide) 0 2 (by decide) (by decide)
    (fun (u : Unit) (_ : Int) => (u, (0 : Int))) ()
  match h with
  | ⟨run, h1, h2, _⟩ => ⟨by decide, by decide, by decide, by decide, run, h1, h2⟩

/-- C6 (code defect). On the 10 x 10 grid of `main`, the position that starts the
iteration of `neighbours(0, 2)` (the view itself, and its `begin()`) has cursor 0 and
differs from `end()`, yet its offset `(-1, -1)` does not exist for the centre, and
dereferencing it, as `std::for_each` of main.cpp 27 does first, subscripts the
storage outside the vector. For the centre `(2, 0)` the dereference of `begin()`
stays inside the vector but writes slot 9, the cell `(0, 9)`, which is not a
neighbour. -/
theorem C6_begin_position_outside_grid :
    (main_ones.neighbours 0 2).begin = main_ones.neighbours 0 2 ∧
      (main_ones.neighbours 0 2).begin.neighbours = 0 ∧
      NeighbourIterator.ne (main_ones.neighbours 0 2).begin (main_ones.neighbours 0 2).end_ = true ∧
      (main_ones.neighbours 0 2).begin.get_delta = some (-1, -1) ∧
      (main_ones.neighbours 0 2).begin.exists_ main_ones = some false ∧
      ¬ OffsetExists main_ones 0 2 0 ∧
      (main_ones.neighbours 0 2).begin.star main_ones = none ∧
      (main_ones.neighbours 0 2).begin.star_assign main_ones 4 = none ∧
      ((main_ones.neighbours 2 0).begin.star_assign main_ones 4).map (fun m1 => m1.call 0 9)
        = some (some 4) := by
  decide

/-- C7 (code defect). `neighbours(0, 2)` on the 10 x 10 grid of `main` and its `begin()`
have cursor 0, although the offset 0 does not exist for this centre; the first
offset that exists is the one of cursor 3, which is where `operator++` moves from
cursor 0. -/
theorem C7_begin_cursor_is_zero :
    (main_ones.neighbours 0 2).neighbours = 0 ∧
      (main_ones.neighbours 0 2).begin.neighbours = 0 ∧
      (main_ones.neighbours 0 2).begin.exists_ main_ones = some false ∧
      (main_ones.neighbours 0 2).begin.inc main_ones = some ⟨0, 2, 3⟩ ∧
      NeighbourIterator.get_delta ⟨0, 2, 3⟩ = some (0, -1) ∧
      NeighbourIterator.exists_ ⟨0, 2, 3⟩ main_ones = some true := by
  decide

/-- C8. Advance transition: for every grid, centre and cursor `k` in `0 .. 7`,
`operator++` is defined and moves the cursor to some `j` with `k < j <= 8` such that
the offset of `j` exists when `j <= 7` and no offset of a cursor strictly between
`k` and `j` exists; `j` is 8 exactly when no offset after `k` exists; repeated
advance reaches the cursor of `end()` within `8 - k` steps. The coordinates of an
offset are the `size_type` values the code computes; when the dimensions and the
successors of the centre coordinates are representable they are in the grid exactly
when the integer coordinates `(r + dr, c + dc)` are. -/
theorem C8_advance_transition {T : Type} (m : Matrix T) (row col : Nat) (k : Int)
    (h0 : 0 ≤ k) (h7 : k ≤ 7) :
    ∃ j, NeighbourIterator.inc ⟨row, col, k⟩ m = some ⟨row, col, j⟩ ∧ k < j ∧ j ≤ 8 ∧
      (j ≤ 7 → OffsetExists m row col j) ∧
      (∀ i, k < i → i < j → ¬ OffsetExists m row col i) ∧
      (j = 8 ↔ ∀ i, k < i → i ≤ 7 → ¬ OffsetExists m row col i) ∧
      (∃ n : Nat, n ≤ 8 ∧ (n : Int) ≤ 8 - k ∧
        NeighbourIterator.incN m n ⟨row, col, k⟩
          = some (NeighbourIterator.end_ ⟨row, col, k⟩)) ∧
      (m.rows_ < SIZE_MOD → m.cols_ < SIZE_MOD → row + 1 < SIZE_MOD → col + 1 < SIZE_MOD →
        ∀ i, OffsetExists m row col i ↔
          0 ≤ i ∧ ∃ d ∈ neighbours_delta[i.toNat]?,
            inGridInt m.rows_ m.cols_ (offsetInt row col d) = true) := by
  obtain ⟨j, hj, hlt, hle, hex, hmin⟩ := NeighbourIterator.incLoop_spec m row col
    (neighbours_delta.length + 1) k (by omega) h7 (by rw [neighbours_delta_length]; omega)
  obtain ⟨n, hn, hreach⟩ := NeighbourIterator.incN_reaches_end m row col (8 - k).toNat k h0
    (by omega) (le_refl _)
  refine ⟨j, hj, hlt, hle, hex, hmin, ?_, ⟨n, by omega, by omega, hreach⟩, ?_⟩
  · constructor
    · intro h8 i h1 h2
      exact hmin i h1 (by omega)
    · intro hall
      by_contra hne
      exact hall j hlt (by omega) (hex (by omega))
  · intro hrows hcols hrow hcol i
    exact offsetExists_iff_int m row col i hrows hcols hrow hcol

/-- Witness of C8: from cursor 0 of `neighbours(0, 2)` on the 10 x 10 grid the
advance stops at cursor 3. -/
theorem C8_advance_transition_witness :
    (0 : Int) ≤ 0 ∧ (0 : Int) ≤ 7 ∧
      NeighbourIterator.inc ⟨0, 2, 0⟩ main_ones = some ⟨0, 2, 3⟩ ∧
      ∃ j, NeighbourIterator.inc ⟨0, 2, 0⟩ main_ones = some ⟨0, 2, j⟩ ∧ 0 < j ∧ j ≤ 8 :=
  match C8_advance_transition main_ones 0 2 0 (by decide) (by decide) with
  | ⟨j, h1, h2, h3, _⟩ => ⟨by decide, by decide, by decide, j, h1, h2, h3⟩

/-- C9 (as stated, refuted). On the 10 x 10 grid of `main`, `operator++` applied to
`end()` of `neighbours(5, 5)` (cursor 8) is neither an error nor a no-op: it returns
the position of cursor 9, which does not compare equal to `end()`. -/
theorem C9_advance_from_end_moves :
    (main_ones.neighbours 5 5).end_.neighbours = 8 ∧
      (main_ones.neighbours 5 5).end_.inc main_ones = some ⟨5, 5, 9⟩ ∧
      (main_ones.neighbours 5 5).end_.inc main_ones ≠ none ∧
      (main_ones.neighbours 5 5).end_.inc main_ones ≠ some (main_ones.neighbours 5 5).end_ ∧
      NeighbourIterator.eq ⟨5, 5, 9⟩ (main_ones.neighbours 5 5).end_ = false := by
  decide

/-- C9 (amended). For every grid and centre, `operator++` applied to the position of
cursor 8 is defined and moves the cursor to 9, so the position no longer compares
equal to `end()`; the loop stops on `neighbours < neighbours_delta.size()` before
`exists()` is evaluated, so the offset table is not read at all (a read at an index
of 8 or more is the only way `get_delta` yields `none`, and would make the advance
`none`). -/
theorem C9_advance_from_end {T : Type} (m : Matrix T) (row col : Nat) :
    (NeighbourIterator.end_ ⟨row, col, 0⟩).neighbours = 8 ∧
      NeighbourIterator.inc ⟨row, col, 8⟩ m = some ⟨row, col, 9⟩ ∧
      NeighbourIterator.eq ⟨row, col, 9⟩ (NeighbourIterator.end_ ⟨row, col, 9⟩) = false ∧
      NeighbourIterator.ne ⟨row, col, 9⟩ (NeighbourIterator.end_ ⟨row, col, 9⟩) = true ∧
      (∀ k : Int, 0 ≤ k → k < 18446744073709551616 →
        (NeighbourIterator.get_delta ⟨row, col, k⟩ = none ↔ 8 ≤ k)) := by
  refine ⟨rfl, ?_, rfl, rfl, ?_⟩
  · exact NeighbourIterator.incLoop_past_table m row col 8 (by decide)
      (by rw [INT_MAX_eq]; decide)
  · intro k h0 h1
    unfold NeighbourIterator.get_delta
    simp only [toSize_of_nonneg k h0 h1]
    rw [List.getElem?_eq_none_iff, neighbours_delta_length]
    omega

/-- C10. Position equality: `a == b` holds exactly when the cursors are equal, whatever
the centres (and the grids) of the two positions; `a != b` is its negation; `end()`
has cursor 8 for every centre, so a position equals `end()` exactly when its cursor
is 8; positions taken from two grids and two centres compare equal as soon as their
cursors agree. -/
theorem C10_position_equality {T : Type} (a b : NeighbourIterator) (m1 m2 : Matrix T)
    (r1 c1 r2 c2 : Nat) :
    (NeighbourIterator.eq a b = true ↔ a.neighbours = b.neighbours) ∧
      NeighbourIterator.ne a b = !NeighbourIterator.eq a b ∧
      a.end_.neighbours = 8 ∧
      (NeighbourIterator.eq a b.end_ = true ↔ a.neighbours = 8) ∧
      (NeighbourIterator.eq a a.end_ = true ↔ a.neighbours = 8) ∧
      NeighbourIterator.eq (m1.neighbours r1 c1).begin (m2.neighbours r2 c2).begin = true ∧
      NeighbourIterator.eq (m1.neighbours r1 c1).end_ (m2.neighbours r2 c2).end_ = true ∧
      NeighbourIterator.eq ⟨r1, c1, a.neighbours⟩ ⟨r2, c2, a.neighbours⟩ = true := by
  refine ⟨?_, ?_, rfl, ?_, ?_, ?_, ?_, ?_⟩
  · simp [NeighbourIterator.eq]
  · simp [NeighbourIterator.eq, NeighbourIterator.ne]
  · simp only [NeighbourIterator.eq, NeighbourIterator.end_, decide_eq_true_eq]
    rfl
  · simp only [NeighbourIterator.eq, NeighbourIterator.end_, decide_eq_true_eq]
    rfl
  · simp [NeighbourIterator.eq, NeighbourIterator.begin]
  · simp [NeighbourIterator.eq, NeighbourIterator.end_]
  · simp [NeighbourIterator.eq]

/-- C11. Dereference aliases the grid cell: on a grid satisfying the data-model
invariant, for a cursor `k` in `0 .. 7` whose table entry `(dr, dc)` gives integer
coordinates `(r + dr, c + dc)` inside the grid, reading through `operator*` is
reading `m(r + dr, c + dc)` and yields a value; assigning `v` through `operator*` is
the assignment `m(r + dr, c + dc) = v`, after which both the direct read of that
cell and a read through `operator*` return `v`. -/
theorem C11_dereference_aliases {T : Type} (m : Matrix T) (hm : m.Valid) (row col : Nat)
    (k : Int) (d : Int × Int) (h0 : 0 ≤ k) (h7 : k ≤ 7)
    (hd : neighbours_delta[k.toNat]? = some d)
    (hin : inGridInt m.rows m.cols (offsetInt row col d) = true) (v : T) :
    NeighbourIterator.star ⟨row, col, k⟩ m
        = m.call ((row : Int) + d.1).toNat ((col : Int) + d.2).toNat ∧
      (∃ x, NeighbourIterator.star ⟨row, col, k⟩ m = some x) ∧
      NeighbourIterator.star_assign ⟨row, col, k⟩ m v
        = m.assign ((row : Int) + d.1).toNat ((col : Int) + d.2).toNat v ∧
      ∃ m1, NeighbourIterator.star_assign ⟨row, col, k⟩ m v = some m1 ∧
        m1.call ((row : Int) + d.1).toNat ((col : Int) + d.2).toNat = some v ∧
        NeighbourIterator.star ⟨row, col, k⟩ m1 = some v := by
  simp only [inGridInt, offsetInt, decide_eq_true_eq, Matrix.rows, Matrix.cols] at hin
  have hk : toSize k = k.toNat := toSize_of_nonneg k h0 (by omega)
  have hr := addDelta_of_inGrid row m.rows_ d.1 hm.1 hin.1 hin.2.1
  have hc := addDelta_of_inGrid col m.cols_ d.2 hm.2.1 hin.2.2.1 hin.2.2.2
  have hr1 : ((row : Int) + d.1).toNat < m.rows_ := by omega
  have hc1 : ((col : Int) + d.2).toNat < m.cols_ := by omega
  have hstar : ∀ m2 : Matrix T, NeighbourIterator.star ⟨row, col, k⟩ m2
      = m2.call ((row : Int) + d.1).toNat ((col : Int) + d.2).toNat := by
    intro m2
    simp only [NeighbourIterator.star, NeighbourIterator.get_delta, hk, hd, hr, hc]
  have hassign : NeighbourIterator.star_assign ⟨row, col, k⟩ m v
      = m.assign ((row : Int) + d.1).toNat ((col : Int) + d.2).toNat v := by
    simp only [NeighbourIterator.star_assign, NeighbourIterator.get_delta, hk, hd, hr, hc]
  obtain ⟨m1, h1, h2, _⟩ := Matrix.assign_call_of_valid m hm _ _ hr1 hc1 v
  refine ⟨hstar m, ?_, hassign, m1, ?_, h2, ?_⟩
  · rw [hstar m]
    exact Matrix.call_isSome_of_valid m hm _ _ hr1 hc1
  · rw [hassign]
    exact h1
  · rw [hstar m1]
    exact h2

/-- Witness of C11: cursor 3, offset `(0, -1)`, of centre `(0, 2)` on the 10 x 10 grid
of ones denotes the cell `(0, 1)`. -/
theorem C11_dereference_aliases_witness :
    main_ones.Valid ∧ neighbours_delta[(3 : Int).toNat]? = some (0, -1) ∧
      NeighbourIterator.star ⟨0, 2, 3⟩ main_ones = main_ones.call 0 1 ∧
      ∃ m1, NeighbourIterator.star_assign ⟨0, 2, 3⟩ main_ones 4 = some m1 ∧
        m1.call 0 1 = some 4 ∧ NeighbourIterator.star ⟨0, 2, 3⟩ m1 = some 4 :=
  have h := C11_dereference_aliases main_ones (by decide) 0 2 3 (0, -1) (by decide)
    (by decide) (by decide) (by decide) 4
  ⟨by decide, by decide, h.1.trans (by decide),
    match h.2.2.2 with
    | ⟨m1, h1, h2, h3⟩ => ⟨m1, h1, (Eq.symm (by rfl)).trans h2, h3⟩⟩

/-- C12. Interior cells have 8 neighbours: on a grid satisfying the data-model
invariant and for a strictly interior centre (`1 <= r`, `r + 1 < rows`, `1 <= c`,
`c + 1 < cols`), iterating `neighbours(r, c)` from `begin()` to `end()` is defined
and hands to `f` exactly 8 elements, the cells `(r + dr, c + dc)` of all 8 offsets in
table order, each once; it is the sequence of calls on these cells and coincides
with `traverse(f, r, c)`. On the 10 x 10 grid of `main`, `neighbours(8, 8)` yields
the slots 77, 78, 79, 87, 89, 97, 98, 99 and `traverse(f, 5, 5)` visits the slots
44, 45, 46, 54, 56, 64, 65, 66. -/
theorem C12_interior_eight_neighbours {T σ : Type} (m : Matrix T) (hm : m.Valid) (r c : Nat)
    (hr1 : 1 ≤ r) (hr2 : r + 1 < m.rows) (hc1 : 1 ≤ c) (hc2 : c + 1 < m.cols)
    (f : σ → T → σ × T) (s : σ) :
    (∃ run, m.for_each_neighbours f r c s = some run ∧
      run.visited = neighbours_delta.map
        (fun d => m.slot ((r : Int) + d.1).toNat ((c : Int) + d.2).toNat) ∧
      run.visited.length = 8 ∧ run.visited.Nodup ∧
      (neighbours_delta.map
          (fun d => (((r : Int) + d.1).toNat, ((c : Int) + d.2).toNat))).foldlM
        (fun run p => Matrix.applyAt f run p.1 p.2) (Run.mk m s []) = some run ∧
      m.traverseAt f r c s = some run) ∧
    (∀ d ∈ neighbours_delta,
      ((r : Int) + d.1).toNat < m.rows ∧ ((c : Int) + d.2).toNat < m.cols) ∧
    ((main_ones.for_each_neighbours (set_lambda 8) 8 8 ()).map (fun run => run.visited)
        = some [77, 78, 79, 87, 89, 97, 98, 99] ∧
      (main_ones.traverseAt (set_lambda 0) 5 5 ()).map (fun run => run.visited)
        = some [44, 45, 46, 54, 56, 64, 65, 66]) := by
  have hr : r < m.rows_ := by
    have := hr2
    simp only [Matrix.rows] at this
    omega
  have hc : c < m.cols_ := by
    have := hc2
    simp only [Matrix.cols] at this
    omega
  have hcells := neighbourCells_interior m.rows_ m.cols_ r c hr1 hr2 hc1 hc2
  obtain ⟨run, h1, h2, h3, h4, _⟩ := Matrix.traverseAt_spec f m hm r c hr hc s
  rw [hcells] at h2 h3
  refine ⟨⟨run, ?_, ?_, ?_, h4, h2, h1⟩, ?_, ?_⟩
  · rw [Matrix.for_each_neighbours_eq_traverseAt f m r c s
      (offsetExists_zero m hm r c hr hc hr1 hc1)]
    exact h1
  · rw [h3, List.map_map]
    rfl
  · rw [h3]
    simp [neighbours_delta]
  · intro d hd
    have h := neighbourCells_valid m.rows_ m.cols_ r c
      (((r : Int) + d.1).toNat, ((c : Int) + d.2).toNat)
      (by rw [hcells]; exact List.mem_map_of_mem _ hd)
    exact h
  · decide

/-- Witness of C12: centre `(8, 8)` of the 10 x 10 grid of `main` with the lambda
`el = 8`. -/
theorem C12_interior_eight_neighbours_witness :
    main_ones.Valid ∧ 1 ≤ 8 ∧ 8 + 1 < main_ones.rows ∧ 8 + 1 < main_ones.cols ∧
      ∃ run, main_ones.for_each_neighbours (set_lambda 8) 8 8 () = some run ∧
        run.visited.length = 8 :=
  match (C12_interior_eight_neighbours main_ones (by decide) 8 8 (by decide) (by decide)
    (by decide) (by decide) (set_lambda 8) ()).1 with
  | ⟨run, h1, _, h3, _⟩ => ⟨by decide, by decide, by decide, by decide, run, h1, h3⟩

/-- C13 (code defect). On the 10 x 10 grid of `main`, iterating `neighbours(0, 0)` or
`neighbours(0, 2)` from `begin()` to `end()` first dereferences the start position of
cursor 0, whose offset `(-1, -1)` does not exist: the subscript is outside the
vector and the iteration is undefined whatever the fuel, where the claim expects 3
and 5 elements (the cells that `traverse(f, 0, 0)` and `traverse(f, 0, 2)` visit). -/
theorem C13_border_iteration_dereferences_outside :
    existingCells 10 10 0 0 = [(0, 1), (1, 0), (1, 1)] ∧
      (existingCells 10 10 0 2).length = 5 ∧
      (main_ones.traverseAt (set_lambda 4) 0 0 ()).map (fun run => run.visited)
        = some [1, 10, 11] ∧
      (main_ones.traverseAt (set_lambda 4) 0 2 ()).map (fun run => run.visited)
        = some [1, 3, 11, 12, 13] ∧
      (main_ones.neighbours 0 0).begin.star main_ones = none ∧
      (main_ones.neighbours 0 2).begin.star main_ones = none ∧
      main_ones.for_each_neighbours (set_lambda 4) 0 0 () = none ∧
      main_ones.for_each_neighbours (set_lambda 4) 0 2 () = none ∧
      (∀ fuel, NeighbourIterator.for_each_loop (set_lambda 4) fuel
        (main_ones.neighbours 0 0).begin (main_ones.neighbours 0 0).end_
        (Run.mk main_ones () []) = none) ∧
      (∀ fuel, NeighbourIterator.for_each_loop (set_lambda 4) fuel
        (main_ones.neighbours 0 2).begin (main_ones.neighbours 0 2).end_
        (Run.mk main_ones () []) = none) := by
  refine ⟨by decide, by decide, by decide, by decide, by decide, by decide, rfl, rfl, ?_, ?_⟩
  · intro fuel
    cases fuel with
    | zero => rfl
    | succ n => rfl
  · intro fuel
    cases fuel with
    | zero => rfl
    | succ n => rfl

/-- C14 (as stated, refuted). In the run of `main` on the 10 x 10 grid, after the
range-based `for` over `neighbours(8, 8)` eight cells hold 8, not three (`(8, 8)` is
an interior cell: the cell `(7, 7)` holds 8), and the last statement, `for_each` over
`neighbours(0, 2)`, has no defined result: its first dereference is outside the
vector. -/
theorem C14_main_scenario_differs :
    main_after_range_for.map (fun g => g.data.count 8) = some 8 ∧
      main_after_range_for.bind (fun g => g.call 7 7) = some 8 ∧
      (neighbourCells 10 10 8 8).length = 8 ∧
      main_after_range_for.map (fun g => (g.neighbours 0 2).begin.star g) = some none ∧
      main_final = none := by
  decide

/-- C14 (amended). Starting from `Matrix<int>(10, 10)`, filling with 0, incrementing
every element, running `traverse(el = 0, 5, 5)` and assigning 8 to every element of
the range-based `for` over `neighbours(8, 8)`, every step is defined (no access
outside the vector) and the grid then has the 8 cells adjacent to `(5, 5)` equal to
0, the 8 cells adjacent to `(8, 8)` equal to 8, and every other cell equal to 1. -/
theorem C14_main_scenario :
    ∃ g, main_after_range_for = some g ∧ g.rows = 10 ∧ g.cols = 10 ∧
      (∀ r c : Fin 10, g.call r c = some
        (if ((r : Nat), (c : Nat)) ∈ neighbourCells 10 10 5 5 then 0
         else if ((r : Nat), (c : Nat)) ∈ neighbourCells 10 10 8 8 then 8 else 1)) ∧
      neighbourCells 10 10 5 5
        = [(4, 4), (4, 5), (4, 6), (5, 4), (5, 6), (6, 4), (6, 5), (6, 6)] ∧
      neighbourCells 10 10 8 8
        = [(7, 7), (7, 8), (7, 9), (8, 7), (8, 9), (9, 7), (9, 8), (9, 9)] ∧
      g.data.count 0 = 8 ∧ g.data.count 8 = 8 ∧ g.data.count 1 = 84 := by
  refine ⟨_, rfl, ?_⟩
  set_option maxRecDepth 100000 in decide

/-- C15 (code defect). On the grid `Matrix(0, 0)`, `traverse(f)` and `traverse(f, r, c)`
apply `f` zero times, but iterating `neighbours(r, c)` from `begin()` to `end()` does
not yield zero elements: `begin()` (cursor 0) differs from `end()` (cursor 8), so the
loop dereferences it, which subscripts the empty vector; the iteration is undefined
whatever the fuel. -/
theorem C15_zero_grid_iteration_dereferences {T σ : Type} [Inhabited T]
    (f : σ → T → σ × T) (s : σ) (r c : Nat) :
    (Matrix.create 0 0 : Matrix T).data = [] ∧
      ((Matrix.create 0 0 : Matrix T).traverse f s).visited = [] ∧
      (∃ run, (Matrix.create 0 0 : Matrix T).traverseAt f r c s = some run ∧
        run.visited = []) ∧
      NeighbourIterator.ne ((Matrix.create 0 0 : Matrix T).neighbours r c).begin
        ((Matrix.create 0 0 : Matrix T).neighbours r c).end_ = true ∧
      ((Matrix.create 0 0 : Matrix T).neighbours r c).begin.star
        (Matrix.create 0 0 : Matrix T) = none ∧
      (∀ fuel, NeighbourIterator.for_each_loop f fuel
        ((Matrix.create 0 0 : Matrix T).neighbours r c).begin
        ((Matrix.create 0 0 : Matrix T).neighbours r c).end_
        (Run.mk (Matrix.create 0 0 : Matrix T) s []) = none) ∧
      (Matrix.create 0 0 : Matrix T).for_each_neighbours f r c s = none := by
  have hloop : ∀ fuel, NeighbourIterator.for_each_loop f fuel
      ((Matrix.create 0 0 : Matrix T).neighbours r c).begin
      ((Matrix.create 0 0 : Matrix T).neighbours r c).end_
      (Run.mk (Matrix.create 0 0 : Matrix T) s []) = none := by
    intro fuel
    cases fuel with
    | zero => rfl
    | succ n => rfl
  refine ⟨rfl, rfl, ⟨Run.mk (Matrix.create 0 0) s [], ?_, rfl⟩, rfl, rfl, hloop, hloop _⟩
  rw [Matrix.traverseAt_eq_existing]
  have hnil : existingCells (Matrix.create 0 0 : Matrix T).rows_
      (Matrix.create 0 0 : Matrix T).cols_ r c = [] := by
    simp [existingCells, existingCellsOf, Matrix.create]
  rw [hnil]
  rfl

/-- C18. The two neighbour APIs agree where the first offset is in bounds: on a grid
satisfying the data-model invariant and for an in-grid centre with `r >= 1` and
`c >= 1`, applying `f` to each element of the iteration of `neighbours(r, c)` from
`begin()` to `end()` has the same result as `traverse(f, r, c)`: both are defined,
hand the same slots to `f` in the same order (those of the in-grid neighbour
cells), and leave the same grid and the same captured state. -/
theorem C18_neighbour_apis_agree {T σ : Type} (m : Matrix T) (hm : m.Valid) (r c : Nat)
    (hr : r < m.rows) (hc : c < m.cols) (hr1 : 1 ≤ r) (hc1 : 1 ≤ c)
    (f : σ → T → σ × T) (s : σ) :
    m.for_each_neighbours f r c s = m.traverseAt f r c s ∧
      ∃ run, m.for_each_neighbours f r c s = some run ∧ m.traverseAt f r c s = some run ∧
        run.visited = (neighbourCells m.rows m.cols r c).map (fun p => m.slot p.1 p.2) := by
  have heq := Matrix.for_each_neighbours_eq_traverseAt f m r c s
    (offsetExists_zero m hm r c hr hc hr1 hc1)
  obtain ⟨run, h1, _, h3, _⟩ := Matrix.traverseAt_spec f m hm r c hr hc s
  exact ⟨heq, run, heq.trans h1, h1, h3⟩

/-- Witness of C18: centre `(8, 8)` of the 10 x 10 grid of `main` with the lambda
`el = 8`. -/
theorem C18_neighbour_apis_agree_witness :
    main_ones.Valid ∧ 8 < main_ones.rows ∧ 8 < main_ones.cols ∧
      main_ones.for_each_neighbours (set_lambda 8) 8 8 ()
        = main_ones.traverseAt (set_lambda 8) 8 8 () :=
  ⟨by decide, by decide, by decide,
    (C18_neighbour_apis_agree main_ones (by decide) 8 8 (by decide) (by decide) (by decide)
      (by decide) (set_lambda 8) ()).1⟩

/-- C19. Frame of neighbourhood traversal: on a grid satisfying the data-model invariant
and for an in-grid centre `(r, c)`, `traverse(f, r, c)` is defined, hands no slot to
`f` more than once, and leaves unchanged the centre cell, every cell `(r1, c1)` with
`|r1 - r| > 1` or `|c1 - c| > 1`, and more generally every cell that is not an
in-grid neighbour. -/
theorem C19_neighbourhood_frame {T σ : Type} (m : Matrix T) (hm : m.Valid) (r c : Nat)
    (hr : r < m.rows) (hc : c < m.cols) (f : σ → T → σ × T) (s : σ) :
    ∃ run, m.traverseAt f r c s = some run ∧ run.visited.Nodup ∧
      run.m.call r c = m.call r c ∧ m.slot r c ∉ run.visited ∧
      (∀ r1 c1, r1 < m.rows → c1 < m.cols →
        (1 < |(r1 : Int) - (r : Int)| ∨ 1 < |(c1 : Int) - (c : Int)|) →
        run.m.call r1 c1 = m.call r1 c1 ∧ m.slot r1 c1 ∉ run.visited) ∧
      (∀ r1 c1, r1 < m.rows → c1 < m.cols → (r1, c1) ∉ neighbourCells m.rows m.cols r c →
        run.m.call r1 c1 = m.call r1 c1) := by
  obtain ⟨run, h1, h2, h3, h4, h5⟩ := Matrix.traverseAt_spec f m hm r c hr hc s
  have hvalid := neighbourCells_valid m.rows_ m.cols_ r c
  have hnear := neighbourCells_near m.rows_ m.cols_ r c
  have hslot : ∀ r1 c1, run.m.slot r1 c1 = m.slot r1 c1 := by
    intro r1 c1
    unfold Matrix.slot
    rw [h5.2.1]
  have key : ∀ r1 c1, r1 < m.rows_ → c1 < m.cols_ →
      (r1, c1) ∉ neighbourCells m.rows_ m.cols_ r c →
      run.m.call r1 c1 = m.call r1 c1 ∧ m.slot r1 c1 ∉ run.visited := by
    intro r1 c1 hr1 hc1 hnot
    have hne : ∀ p ∈ neighbourCells m.rows_ m.cols_ r c, m.slot p.1 p.2 ≠ m.slot r1 c1 := by
      intro p hp heq
      obtain ⟨a, b⟩ := Matrix.slot_inj_of_valid m hm p.1 p.2 r1 c1 (hvalid p hp).1
        (hvalid p hp).2 hr1 hc1 heq
      apply hnot
      have : p = (r1, c1) := Prod.ext a b
      rw [← this]
      exact hp
    constructor
    · unfold Matrix.call
      rw [hslot]
      exact Matrix.foldlM_applyAt_frame f m _ (Run.mk m s []) run (SameShape.refl m) h2 _ hne
    · rw [h3, List.mem_map]
      rintro ⟨p, hp, heq⟩
      exact hne p hp heq
  have hcentre : (r, c) ∉ neighbourCells m.rows_ m.cols_ r c := by
    intro hmem
    exact (hnear (r, c) hmem).2.2 ⟨rfl, rfl⟩
  refine ⟨run, h1, h4, (key r c hr hc hcentre).1, (key r c hr hc hcentre).2, ?_, ?_⟩
  · intro r1 c1 hr1 hc1 hfar
    apply key r1 c1 hr1 hc1
    intro hmem
    have hn := hnear (r1, c1) hmem
    simp only at hn
    rcases hfar with h | h
    · rw [lt_abs] at h
      omega
    · rw [lt_abs] at h
      omega
  · intro r1 c1 hr1 hc1 hnot
    exact (key r1 c1 hr1 hc1 hnot).1

/-- Witness of C19: `traverse(el = 0, 5, 5)` on the 10 x 10 grid of ones leaves the
centre `(5, 5)` equal to 1. -/
theorem C19_neighbourhood_frame_witness :
    main_ones.Valid ∧ 5 < main_ones.rows ∧ 5 < main_ones.cols ∧
      ∃ run, main_ones.traverseAt (set_lambda 0) 5 5 () = some run ∧ run.visited.Nodup ∧
        run.m.call 5 5 = main_ones.call 5 5 :=
  match C19_neighbourhood_frame main_ones (by decide) 5 5 (by decide) (by decide)
    (set_lambda 0) () with
  | ⟨run, h1, h2, h3, _⟩ => ⟨by decide, by decide, by decide, run, h1, h2, h3⟩

/-- C20. Out-of-grid centre with unsigned arithmetic: on a grid satisfying the data-model
invariant with `1 <= rows`, `rows + 1 < 2^64` and a column `c` with `1 <= c` and
`c + 2 <= cols`, `traverse(f, rows, c)` (centre one row past the last row) is defined
and hands to `f` exactly the slots of the cells `(rows-1, c-1)`, `(rows-1, c)`,
`(rows-1, c+1)`, in this order: it is the sequence of the three calls on these
cells. For a centre in row 0, every offset with `dr = -1` gives the `size_type` row
`2^64 - 1`, which fails the test `r < rows`, and the step leaves the run as it is. -/
theorem C20_out_of_grid_centre {T σ : Type} (m : Matrix T) (hm : m.Valid) (c : Nat)
    (hrows1 : 1 ≤ m.rows) (hrows2 : m.rows + 1 < SIZE_MOD) (hc1 : 1 ≤ c)
    (hc2 : c + 2 ≤ m.cols) (f : σ → T → σ × T) (s : σ) :
    (∃ run, m.traverseAt f m.rows c s = some run ∧
      run.visited = [m.slot (m.rows - 1) (c - 1), m.slot (m.rows - 1) c,
        m.slot (m.rows - 1) (c + 1)] ∧
      [((m.rows - 1, c - 1) : Nat × Nat), (m.rows - 1, c), (m.rows - 1, c + 1)].foldlM
        (fun run p => Matrix.applyAt f run p.1 p.2) (Run.mk m s []) = some run ∧
      run.visited.Nodup) ∧
    (∀ d ∈ neighbours_delta, d.1 = -1 →
      addDelta 0 d.1 = 2 ^ 64 - 1 ∧ ¬ addDelta 0 d.1 < m.rows ∧
        ∀ (col : Nat) (run0 : Run T σ), SameShape m run0.m →
          Matrix.traverseStep f 0 col run0 d = some run0) := by
  have hcells := existingCells_below_last_row m.rows_ m.cols_ c hrows1 hrows2 hm.2.1 hc1 hc2
  have hr : m.rows_ - 1 < m.rows_ := by
    have := hrows1
    simp only [Matrix.rows] at this
    omega
  have hcc : c + 2 ≤ m.cols_ := hc2
  have hvalid : ∀ p ∈ [((m.rows_ - 1, c - 1) : Nat × Nat), (m.rows_ - 1, c),
      (m.rows_ - 1, c + 1)], p.1 < m.rows_ ∧ p.2 < m.cols_ := by
    intro p hp
    simp only [List.mem_cons, List.mem_singleton, List.not_mem_nil, or_false] at hp
    rcases hp with rfl | rfl | rfl
    · exact ⟨hr, by simp only; omega⟩
    · exact ⟨hr, by simp only; omega⟩
    · exact ⟨hr, by simp only; omega⟩
  obtain ⟨run, h1, _, h3⟩ := Matrix.foldlM_applyAt_cells f m hm _ hvalid (Run.mk m s [])
    (SameShape.refl m)
  have hvis : run.visited = [m.slot (m.rows - 1) (c - 1), m.slot (m.rows - 1) c,
      m.slot (m.rows - 1) (c + 1)] := by
    simpa using h3
  refine ⟨⟨run, ?_, hvis, h1, ?_⟩, ?_⟩
  · show m.traverseAt f m.rows_ c s = some run
    rw [Matrix.traverseAt_eq_existing, hcells]
    exact h1
  · rw [hvis]
    have i1 := Matrix.slot_eq_of_valid m hm (m.rows_ - 1) (c - 1) hr (by omega)
    have i2 := Matrix.slot_eq_of_valid m hm (m.rows_ - 1) c hr (by omega)
    have i3 := Matrix.slot_eq_of_valid m hm (m.rows_ - 1) (c + 1) hr (by omega)
    simp only [Matrix.rows]
    rw [i1, i2, i3]
    simp only [List.nodup_cons, List.mem_cons, List.mem_singleton, List.not_mem_nil,
      List.nodup_nil, and_true, not_or, not_false_eq_true]
    omega
  · intro d _ hd1
    have hwrap : addDelta 0 d.1 = 2 ^ 64 - 1 := by
      rw [hd1]
      decide
    have hrows : m.rows_ < 2 ^ 64 := hm.1
    have hnot : ¬ addDelta 0 d.1 < m.rows := by
      rw [hwrap]
      simp only [Matrix.rows]
      omega
    refine ⟨hwrap, hnot, ?_⟩
    intro col run0 hs
    have hneg : ¬ (0 ≤ addDelta 0 d.1 ∧ addDelta 0 d.1 < run0.m.rows_ ∧
        0 ≤ addDelta col d.2 ∧ addDelta col d.2 < run0.m.cols_) := by
      rw [hs.1]
      intro hh
      exact hnot hh.2.1
    simp only [Matrix.traverseStep, if_neg hneg]

/-- Witness of C20: centre `(10, 2)` of the 10 x 10 grid of ones; the three cells are
`(9, 1)`, `(9, 2)`, `(9, 3)`, of slots 91, 92, 93. -/
theorem C20_out_of_grid_centre_witness :
    main_ones.Valid ∧ 1 ≤ main_ones.rows ∧ main_ones.rows + 1 < SIZE_MOD ∧
      2 + 2 ≤ main_ones.cols ∧
      ∃ run, main_ones.traverseAt (set_lambda 0) main_ones.rows 2 () = some run ∧
        run.visited = [main_ones.slot (main_ones.rows - 1) (2 - 1),
          main_ones.slot (main_ones.rows - 1) 2, main_ones.slot (main_ones.rows - 1) (2 + 1)] :=
  match (C20_out_of_grid_centre main_ones (by decide) 2 (by decide) (by decide) (by decide)
    (by decide) (set_lambda 0) ()).1 with
  | ⟨run, h1, h2, _⟩ => ⟨by decide, by decide, by decide, by decide, run, h1, h2⟩

/-- C16. Textual rendering: on a grid satisfying the data-model invariant, for every
element-to-text function and whatever the stream already holds, `operator<<` is
defined and appends exactly the text of the specification: for `r = 0 .. rows-1` in
order, the representations of `m(r, 0), ..., m(r, cols-1)`, each followed by one
space, then one newline; nothing precedes the first line. So the output is made of
`rows` lines, each ending in a newline; a grid with 0 rows renders as the empty
string; and when no representation contains a newline the output has exactly `rows`
newline characters. -/
theorem C16_textual_rendering {T : Type} (m : Matrix T) (hm : m.Valid) (text : T → String)
    (os : String) :
    m.shl text os = some (os ++ m.gridText text) ∧
    m.shl text "" = some (m.gridText text) ∧
    m.gridText text = String.join ((List.range m.rows).map (m.lineText text)) ∧
    ((List.range m.rows).map (m.lineText text)).length = m.rows ∧
    (∀ r, r < m.rows → ∀ cell : Nat → T, (∀ c, c < m.cols → m.call r c = some (cell c)) →
      m.lineText text r
        = String.join ((List.range m.cols).map (fun c => text (cell c) ++ " ")) ++ "\n") ∧
    (∀ r c, r < m.rows → c < m.cols → ∃ x, m.call r c = some x) ∧
    (m.rows = 0 → m.shl text "" = some "") ∧
    ((∀ x, '\n' ∉ (text x).data) → (m.gridText text).data.count '\n' = m.rows) := by
  have h1 := Matrix.shl_eq text m hm
  refine ⟨h1 os, ?_, rfl, by simp, ?_, ?_, ?_, ?_⟩
  · rw [h1 ""]
    simp
  · intro r _ cell hcell
    unfold Matrix.lineText
    congr 2
    apply List.map_congr_left
    intro c hc
    rw [List.mem_range] at hc
    simp only [hcell c hc]
  · intro r c hr hc
    exact Matrix.call_isSome_of_valid m hm r c hr hc
  · intro h0
    have h0' : m.rows_ = 0 := h0
    rw [h1 ""]
    simp [Matrix.gridText, h0', String.join]
  · intro htext
    have h := count_join_const '\n' 1 ((List.range m.rows_).map (m.lineText text)) (by
      intro y hy
      rw [List.mem_map] at hy
      obtain ⟨r, hr, rfl⟩ := hy
      rw [List.mem_range] at hr
      exact Matrix.lineText_count text m hm htext r hr)
    simpa [Matrix.gridText, Matrix.rows] using h

/-- Witness of C16: the 2 x 2 grid `0 1 / 1 0` renders as two lines. -/
theorem C16_textual_rendering_witness :
    grid22.Valid ∧ grid22.gridText bitText = "0 1 \n1 0 \n" ∧
      grid22.shl bitText "" = some (grid22.gridText bitText) :=
  ⟨by decide, by decide, (C16_textual_rendering grid22 (by decide) bitText "").2.1⟩

/-- C17. No rollback on operation failure, each traversal on its own. Full traversal: if
`f` throws no exception on the first `k` elements and throws `e` on the element of
slot `k`, then `traverse(f)` passes `e` on to its caller, has called `f` on the slots
`0, ..., k` only, the first `k` elements hold the values `f` gave them, the element
of slot `k` is as the throwing call left it, and every later element keeps its
previous value. Neighbourhood traversal, for every centre, where `cells` are the
cells that pass the bounds test in table order: if the calls on the first `j` cells
throw nothing and the call on `cells[j]` throws `e1`, then `traverse(f, row, col)`
passes `e1` on, has called `f` on the first `j + 1` cells only, every slot not visited
keeps its previous value, and every slot other than that of the failing call is as
the `j` earlier calls left it. With a callable that never throws both traversals
are those of the plain model and report no exception. -/
theorem C17_no_rollback {T σ ε : Type} (m : Matrix T) (f : σ → T → (σ × T) × Option ε)
    (s : σ) :
    (∀ (k : Nat) (e : ε) (hk : k < m.data.length),
      (Matrix.traverseLoopE f (m.data.take k) 0 s).2 = none →
      (f (Matrix.traverseLoopE f (m.data.take k) 0 s).1.2.1 m.data[k]).2 = some e →
      (m.traverseE f s).2 = some e ∧
        (m.traverseE f s).1.visited = List.range (k + 1) ∧
        (m.traverseE f s).1.m.data
          = (Matrix.traverseLoopE f (m.data.take k) 0 s).1.1 ++
            (f (Matrix.traverseLoopE f (m.data.take k) 0 s).1.2.1 m.data[k]).1.2 ::
              m.data.drop (k + 1) ∧
        (Matrix.traverseLoopE f (m.data.take k) 0 s).1.1.length = k ∧
        (m.traverseE f s).1.st
          = (f (Matrix.traverseLoopE f (m.data.take k) 0 s).1.2.1 m.data[k]).1.1 ∧
        (∀ i, i < k → (m.traverseE f s).1.m.data[i]?
          = (Matrix.traverseLoopE f (m.data.take k) 0 s).1.1[i]?) ∧
        (∀ i, k < i → (m.traverseE f s).1.m.data[i]? = m.data[i]?) ∧
        (m.traverseE f s).1.m.rows = m.rows ∧ (m.traverseE f s).1.m.cols = m.cols) ∧
    (∀ (row col j : Nat) (e1 : ε) (runj run1 : Run T σ) (cells : List (Nat × Nat))
      (_hcells : cells = existingCells m.rows m.cols row col) (hj : j < cells.length),
      Matrix.applyCellsE f (cells.take j) (Run.mk m s []) = some (runj, none) →
      Matrix.applyAtE f runj cells[j].1 cells[j].2 = some (run1, some e1) →
      m.traverseAtE f row col s = some (run1, some e1) ∧
        runj.visited = (cells.take j).map (fun p => m.slot p.1 p.2) ∧
        run1.visited = (cells.take (j + 1)).map (fun p => m.slot p.1 p.2) ∧
        (∀ i, i ∉ run1.visited → run1.m.data[i]? = m.data[i]?) ∧
        (∀ i, i ≠ m.slot cells[j].1 cells[j].2 → run1.m.data[i]? = runj.m.data[i]?) ∧
        SameShape m run1.m) ∧
    (∀ (g : σ → T → σ × T) (row col : Nat),
      m.traverseE (fun u x => (g u x, (none : Option ε))) s = (m.traverse g s, none) ∧
      m.traverseAtE (fun u x => (g u x, (none : Option ε))) row col s
        = (m.traverseAt g row col s).map (fun r => (r, none))) := by
  refine ⟨?_, ?_, ?_⟩
  · intro k e hk hpre hfail
    have hsplit : m.data.take k ++ m.data[k] :: m.data.drop (k + 1) = m.data := by
      rw [← List.drop_eq_getElem_cons hk, List.take_append_drop]
    have hlenk : (m.data.take k).length = k := by
      rw [List.length_take]
      omega
    have key := Matrix.traverseLoopE_fail f m.data[k] (m.data.drop (k + 1)) e (m.data.take k)
      0 s hpre hfail
    rw [hsplit, hlenk] at key
    have hlen := Matrix.traverseLoopE_length f (m.data.take k) 0 s
    rw [hlenk] at hlen
    have hdata : (m.traverseE f s).1.m.data
        = (Matrix.traverseLoopE f (m.data.take k) 0 s).1.1 ++
          (f (Matrix.traverseLoopE f (m.data.take k) 0 s).1.2.1 m.data[k]).1.2 ::
            m.data.drop (k + 1) := by
      show (Matrix.traverseLoopE f m.data 0 s).1.1 = _
      rw [key]
    refine ⟨?_, ?_, hdata, hlen, ?_, ?_, ?_, rfl, rfl⟩
    · show (Matrix.traverseLoopE f m.data 0 s).2 = _
      rw [key]
    · show (Matrix.traverseLoopE f m.data 0 s).1.2.2 = _
      rw [key, List.range_eq_range']
    · show (Matrix.traverseLoopE f m.data 0 s).1.2.1 = _
      rw [key]
    · intro i hi
      rw [hdata, List.getElem?_append_left (by omega)]
    · intro i hi
      rw [hdata, List.getElem?_append_right (by omega), hlen]
      obtain ⟨t, ht⟩ : ∃ t, i - k = t + 1 := ⟨i - k - 1, by omega⟩
      rw [ht, List.getElem?_cons_succ, List.getElem?_drop]
      congr 1
      omega
  · intro row col j e1 runj run1 cells hcells hj hprej hfailj
    have hsplit : cells.take j ++ cells[j] :: cells.drop (j + 1) = cells := by
      rw [← List.drop_eq_getElem_cons hj, List.take_append_drop]
    have hrun : m.traverseAtE f row col s = some (run1, some e1) := by
      unfold Matrix.traverseAtE
      rw [Matrix.traverseStepsE_eq f m row col neighbours_delta (Run.mk m s [])
        (SameShape.refl m)]
      have hc : existingCellsOf m.rows_ m.cols_ row col neighbours_delta = cells := hcells.symm
      rw [hc, ← hsplit]
      exact Matrix.applyCellsE_fail f cells[j] (cells.drop (j + 1)) runj run1 e1 (cells.take j)
        (Run.mk m s []) hprej hfailj
    obtain ⟨a1, a2, a3⟩ := Matrix.applyCellsE_ok f m (cells.take j) (Run.mk m s []) runj
      (SameShape.refl m) hprej
    obtain ⟨b1, b2, b3⟩ := Matrix.applyRefE_spec f runj run1 _ (some e1) hfailj
    have hslot : runj.m.slot cells[j].1 cells[j].2 = m.slot cells[j].1 cells[j].2 := by
      unfold Matrix.slot
      rw [a1.2.1]
    have hvisj : runj.visited = (cells.take j).map (fun p => m.slot p.1 p.2) := by
      simpa using a2
    have hvis1 : run1.visited = (cells.take (j + 1)).map (fun p => m.slot p.1 p.2) := by
      rw [b2, hvisj, hslot, List.take_succ, List.getElem?_eq_getElem hj, List.map_append]
      rfl
    refine ⟨hrun, hvisj, hvis1, ?_, ?_, a1.trans b1⟩
    · intro i hi
      rw [b2, hvisj, hslot] at hi
      simp only [List.mem_append, List.mem_singleton, not_or] at hi
      rw [b3 i (by rw [hslot]; exact fun h => hi.2 h.symm)]
      exact a3 i hi.1
    · intro i hi
      exact b3 i (by rw [hslot]; exact fun h => hi h.symm)
  · intro g row col
    constructor
    · unfold Matrix.traverseE Matrix.traverse
      rw [Matrix.traverseLoopE_no_throw]
    · exact Matrix.traverseStepsE_no_throw g row col neighbours_delta (Run.mk m s [])

/-- Witness of C17 on the 3 x 3 grid `0 .. 8`. The full-traversal part applies to the
operation that throws on its ninth call (slot 8), for which the traversal around
`(1, 1)` throws nothing, and to the operation that throws on the element 5 (slot 5).
The neighbourhood part applies to the operation that throws early on the element 5,
the second cell visited around `(2, 2)`, for which the full traversal throws
nothing, and to the operation that throws on the element 5, fifth cell visited
around `(1, 1)`. -/
theorem C17_no_rollback_witness :
    (8 < grid33.data.length ∧
      (Matrix.traverseLoopE throw_on_ninth (grid33.data.take 8) 0 0).2 = none ∧
      (grid33.traverseE throw_on_ninth 0).2 = some 7 ∧
      (grid33.traverseE throw_on_ninth 0).1.visited = List.range (8 + 1) ∧
      (grid33.traverseE throw_on_ninth 0).1.m.data = [10, 11, 12, 13, 14, 15, 16, 17, 18] ∧
      (grid33.traverseAtE throw_on_ninth 1 1 0).map (fun r => r.2) = some none) ∧
    ((grid33.traverseE failing_op 0).2 = some 7 ∧
      (grid33.traverseE failing_op 0).1.visited = List.range (5 + 1) ∧
      (grid33.traverseE failing_op 0).1.m.data = [10, 11, 12, 13, 14, 15, 6, 7, 8]) ∧
    (existingCells grid33.rows grid33.cols 2 2 = [(1, 1), (1, 2), (2, 1)] ∧
      grid33.traverseAtE throw_early_on_five 2 2 0
        = some (Run.mk (Matrix.mk [0, 1, 2, 3, 14, 15, 6, 7, 8] 3 3) 2 [4, 5], some 7) ∧
      (grid33.traverseE throw_early_on_five 0).2 = none) ∧
    grid33.traverseAtE failing_op 1 1 0
      = some (Run.mk (Matrix.mk [10, 11, 12, 13, 4, 15, 6, 7, 8] 3 3) 5 [0, 1, 2, 3, 5],
          some 7) :=
  have h1 := (C17_no_rollback grid33 throw_on_ninth 0).1 8 7 (by decide) (by decide)
    (by decide)
  have h2 := (C17_no_rollback grid33 failing_op 0).1 5 7 (by decide) (by decide) (by decide)
  have h3 := (C17_no_rollback grid33 throw_early_on_five 0).2.1 2 2 1 7
    (Run.mk (Matrix.mk [0, 1, 2, 3, 14, 5, 6, 7, 8] 3 3) 1 [4])
    (Run.mk (Matrix.mk [0, 1, 2, 3, 14, 15, 6, 7, 8] 3 3) 2 [4, 5])
    (existingCells grid33.rows grid33.cols 2 2) rfl (by decide) rfl rfl
  have h4 := (C17_no_rollback grid33 failing_op 0).2.1 1 1 4 7
    (Run.mk (Matrix.mk [10, 11, 12, 13, 4, 5, 6, 7, 8] 3 3) 4 [0, 1, 2, 3])
    (Run.mk (Matrix.mk [10, 11, 12, 13, 4, 15, 6, 7, 8] 3 3) 5 [0, 1, 2, 3, 5])
    (existingCells grid33.rows grid33.cols 1 1) rfl (by decide) rfl rfl
  ⟨⟨by decide, by decide, h1.1, h1.2.1, by decide, by decide⟩,
    ⟨h2.1, h2.2.1, by decide⟩, ⟨by decide, h3.1, by decide⟩, h4.1⟩

end MatrixCpp
